import Mathlib

/-!
Verification of the streaming response accumulator of
`google/generative-ai-python` (`google/generativeai/types/generation_types.py`).

The `glm` namespace shallowly embeds the protocol buffer messages
(`glm.Part`, `glm.Content`, `glm.SafetyRating`, `glm.CitationMetadata`,
`glm.Candidate`, `glm.GenerateContentResponse`) and the merge functions
`_join_citation_metadatas`, `_join_safety_ratings_lists`, `_join_contents`,
`_join_candidates`, `_join_candidate_lists`, `_join_prompt_feedbacks` and
`_join_chunks`, together with the accumulator state machine of
`GenerateContentResponse` (`from_iterator`, `from_response`, `__iter__`,
`resolve`, and the `candidates` / `parts` / `prompt_feedback` accessors).

Python exceptions are modelled by `Option` / `Except` results: a function
that raises (an `assert` failure, `IndexError` from `pop(0)` on an empty
list, `StopIteration` from `next` on an empty iterable) returns `none` /
`.error`.  Proto enum fields (`category`, `probability`, `finish_reason`,
`block_reason`) are modelled as `Nat`; the `Part` oneof keeps the cases the
merge logic distinguishes: a `text` case and a non-text case (`inline_data`),
whose `text` field reads as the empty string exactly as in proto-plus.
Python `dict` / `collections.defaultdict` (insertion ordered) are modelled
as association lists updated in place and extended at the end.
-/

namespace glm

/-- One `glm.Part` of a `glm.Content`: either a text part or a non-text part
(function call, binary blob, ...), collapsed here to one non-text case
`inline_data` since the merge logic only ever reads the `text` field and the
oneof case. -/
inductive Part where
  | text : String → Part
  | inline_data : Nat → Part
deriving Repr, DecidableEq

/-- Reading `part.text` in proto-plus: the `text` field of a non-text part
reads as the empty string. -/
def Part.textStr : Part → String
  | .text s => s
  | .inline_data _ => ""

/-- Models the Python oneof presence check `"text" in part`. -/
def Part.hasTextField : Part → Bool
  | .text _ => true
  | .inline_data _ => false

/-- A `glm.Content`: a role and an ordered list of parts. -/
structure Content where
  role : String
  parts : List Part
deriving Repr, DecidableEq

/-- A `glm.SafetyRating`: category, probability (enums as `Nat`), blocked flag. -/
structure SafetyRating where
  category : Nat
  probability : Nat
  blocked : Bool
deriving Repr, DecidableEq

/-- A `glm.CitationMetadata`: a list of citation sources (opaque here). -/
structure CitationMetadata where
  citation_sources : List Nat
deriving Repr, DecidableEq

/-- A `glm.Candidate`, with the fields `_join_candidates` reads and rebuilds. -/
structure Candidate where
  index : Nat
  content : Content
  finish_reason : Nat
  safety_ratings : List SafetyRating
  citation_metadata : CitationMetadata
deriving Repr, DecidableEq

/-- A `glm.GenerateContentResponse.PromptFeedback`; only `block_reason`
(an enum, zero meaning unset) is relevant to the accumulator. -/
structure PromptFeedback where
  block_reason : Nat
deriving Repr, DecidableEq

/-- A `glm.GenerateContentResponse` partial message: candidates plus prompt
feedback. -/
structure GenerateContentResponse where
  candidates : List Candidate
  prompt_feedback : PromptFeedback
deriving Repr, DecidableEq

/-- `_join_citation_metadatas`: concatenate, in arrival order, all citation
sources. -/
def _join_citation_metadatas (citation_metadatas : List CitationMetadata) :
    CitationMetadata :=
  ⟨(citation_metadatas.map (·.citation_sources)).flatten⟩

/-- `ratings[rating.category] = rating.probability` on an insertion-ordered
Python `dict`: overwrite in place if the key is present, else append. -/
def updRatings (ratings : List (Nat × Nat)) (cat prob : Nat) :
    List (Nat × Nat) :=
  if ratings.any (fun e => e.1 == cat) then
    ratings.map (fun e => if e.1 == cat then (e.1, prob) else e)
  else ratings ++ [(cat, prob)]

/-- `blocked[rating.category].append(rating.blocked)` on an insertion-ordered
`defaultdict(list)`. -/
def updBlocked (blocked : List (Nat × List Bool)) (cat : Nat) (fl : Bool) :
    List (Nat × List Bool) :=
  if blocked.any (fun e => e.1 == cat) then
    blocked.map (fun e => if e.1 == cat then (e.1, e.2 ++ [fl]) else e)
  else blocked ++ [(cat, [fl])]

/-- One step of the loop body of `_join_safety_ratings_lists`: record the
latest probability and append the blocked flag for the rating's category. -/
def srStep (st : List (Nat × Nat) × List (Nat × List Bool))
    (rating : SafetyRating) : List (Nat × Nat) × List (Nat × List Bool) :=
  (updRatings st.1 rating.category rating.probability,
   updBlocked st.2 rating.category rating.blocked)

/-- `_join_safety_ratings_lists`: build the `ratings` dict (last probability
wins) and the `blocked` dict (list of flags, collapsed with `any`), then zip
`ratings.items()` with `blocked.values()` positionally to rebuild the list. -/
def _join_safety_ratings_lists (safety_ratings_lists : List (List SafetyRating)) :
    List SafetyRating :=
  let st := safety_ratings_lists.flatten.foldl srStep ([], [])
  (st.1.zip (st.2.map (fun e => e.2.any id))).map
    (fun pq => ⟨pq.1.1, pq.1.2, pq.2⟩)

/-- The part-merging loop of `_join_contents`: `last` is `merged_parts[-1]`,
the only element later parts can still be merged into.  If the trailing part
or the incoming part has empty (or absent) text the incoming part is appended
unmodified; otherwise the two text strings are concatenated into one part. -/
def mergePartsAux (last : Part) : List Part → List Part
  | [] => [last]
  | part :: rest =>
    if last.textStr = "" then last :: mergePartsAux part rest
    else if part.textStr = "" then last :: mergePartsAux part rest
    else mergePartsAux (.text (last.textStr ++ part.textStr)) rest

/-- `_join_contents`: assert one shared role, concatenate all part lists, and
run the merging loop seeded with the first part (`parts.pop(0)`; `none` models
the `IndexError` on an empty part list and the `assert` failure on a role
mismatch). -/
def _join_contents (contents : List Content) : Option Content :=
  match contents with
  | [] => none
  | c0 :: rest =>
    if (c0 :: rest).all (fun c => c.role == c0.role) then
      match ((c0 :: rest).map (·.parts)).flatten with
      | [] => none
      | p :: ps => some ⟨c0.role, mergePartsAux p ps⟩
    else none

/-- `_join_candidates`: assert one shared index, merge contents, take the last
mention's finish reason, merge safety ratings and citation metadata. -/
def _join_candidates (candidates : List Candidate) : Option Candidate :=
  match candidates with
  | [] => none
  | c0 :: rest =>
    if (c0 :: rest).all (fun c => c.index == c0.index) then
      match _join_contents ((c0 :: rest).map (·.content)) with
      | none => none
      | some content =>
        some ⟨c0.index, content, (rest.getLastD c0).finish_reason,
              _join_safety_ratings_lists ((c0 :: rest).map (·.safety_ratings)),
              _join_citation_metadatas ((c0 :: rest).map (·.citation_metadata))⟩
    else none

/-- `candidates[candidate.index].append(candidate)` on an insertion-ordered
`defaultdict(list)` keyed by candidate index. -/
def addToGroups (groups : List (Nat × List Candidate)) (candidate : Candidate) :
    List (Nat × List Candidate) :=
  if groups.any (fun e => e.1 == candidate.index) then
    groups.map (fun e =>
      if e.1 == candidate.index then (e.1, e.2 ++ [candidate]) else e)
  else groups ++ [(candidate.index, [candidate])]

/-- `sorted(candidates.items())`: sort the grouped candidates by index (keys
are distinct, so only the key comparison matters). -/
def sortGroups (groups : List (Nat × List Candidate)) :
    List (Nat × List Candidate) :=
  groups.insertionSort (fun a b => a.1 ≤ b.1)

/-- The output loop of `_join_candidate_lists`: join each group in order,
propagating a failed group join (`none`) like the raised Python exception. -/
def joinGroups : List (Nat × List Candidate) → Option (List Candidate)
  | [] => some []
  | e :: t =>
    match _join_candidates e.2 with
    | none => none
    | some cd =>
      match joinGroups t with
      | none => none
      | some tl => some (cd :: tl)

/-- `_join_candidate_lists`: group all candidates by index in arrival order,
then join each group, in ascending index order. -/
def _join_candidate_lists (candidate_lists : List (List Candidate)) :
    Option (List Candidate) :=
  let grouped := candidate_lists.flatten.foldl addToGroups []
  joinGroups (sortGroups grouped)

/-- `_join_prompt_feedbacks`: always return the first prompt feedback
(`none` models the `StopIteration` from `next` on an empty iterable). -/
def _join_prompt_feedbacks (prompt_feedbacks : List PromptFeedback) :
    Option PromptFeedback :=
  prompt_feedbacks.head?

/-- `_join_chunks`: join the candidate lists and keep the first chunk's prompt
feedback. -/
def _join_chunks (chunks : List GenerateContentResponse) :
    Option GenerateContentResponse :=
  match _join_candidate_lists (chunks.map (·.candidates)),
        _join_prompt_feedbacks (chunks.map (·.prompt_feedback)) with
  | some candidates, some prompt_feedback => some ⟨candidates, prompt_feedback⟩
  | _, _ => none

/-- The incremental left-fold the iterator performs on its running result:
`result` starts as the first chunk, and each later chunk is folded in with
`self._result = _join_chunks([self._result, item])`. -/
def foldJoin (m1 : GenerateContentResponse)
    (rest : List GenerateContentResponse) : Option GenerateContentResponse :=
  rest.foldl (fun acc m => acc.bind (fun r => _join_chunks [r, m])) (some m1)

end glm


namespace glm

/-- The boundary relation maintained by the merging loop: two adjacent parts
survive unmerged only when at least one of them has empty text. -/
def PartBoundary (p q : Part) : Prop := p.textStr = "" ∨ q.textStr = ""

theorem mergePartsAux_nil (a : Part) : mergePartsAux a [] = [a] := rfl

theorem mergePartsAux_cons_app (a p : Part) (rest : List Part)
    (h : a.textStr = "" ∨ p.textStr = "") :
    mergePartsAux a (p :: rest) = a :: mergePartsAux p rest := by
  conv_lhs => rw [mergePartsAux]
  rcases h with h | h
  · rw [if_pos h]
  · by_cases h0 : a.textStr = ""
    · rw [if_pos h0]
    · rw [if_neg h0, if_pos h]

theorem mergePartsAux_cons_merge (a p : Part) (rest : List Part)
    (h1 : ¬a.textStr = "") (h2 : ¬p.textStr = "") :
    mergePartsAux a (p :: rest) =
      mergePartsAux (.text (a.textStr ++ p.textStr)) rest := by
  conv_lhs => rw [mergePartsAux]
  rw [if_neg h1, if_neg h2]

theorem mergePartsAux_ne_nil (a : Part) (xs : List Part) :
    mergePartsAux a xs ≠ [] := by
  induction xs generalizing a with
  | nil => simp [mergePartsAux]
  | cons p rest ih =>
    by_cases h1 : a.textStr = ""
    · rw [mergePartsAux_cons_app a p rest (Or.inl h1)]; simp
    · by_cases h2 : p.textStr = ""
      · rw [mergePartsAux_cons_app a p rest (Or.inr h2)]; simp
      · rw [mergePartsAux_cons_merge a p rest h1 h2]; exact ih _

theorem mergePartsAux_head_of_empty (a : Part) (xs : List Part)
    (h : a.textStr = "") :
    mergePartsAux a xs = a :: (mergePartsAux a xs).tail := by
  cases xs with
  | nil => rfl
  | cons p rest => rw [mergePartsAux_cons_app a p rest (Or.inl h)]; rfl

theorem mergePartsAux_chain (a : Part) (xs : List Part) :
    List.Chain' PartBoundary (mergePartsAux a xs) := by
  induction xs generalizing a with
  | nil => simp [mergePartsAux]
  | cons p rest ih =>
    by_cases h1 : a.textStr = ""
    · rw [mergePartsAux_cons_app a p rest (Or.inl h1)]
      exact (ih p).cons' (fun b _ => Or.inl h1)
    · by_cases h2 : p.textStr = ""
      · rw [mergePartsAux_cons_app a p rest (Or.inr h2)]
        refine (ih p).cons' (fun b hb => ?_)
        rw [mergePartsAux_head_of_empty p rest h2] at hb
        simp at hb
        subst hb
        exact Or.inr h2
      · rw [mergePartsAux_cons_merge a p rest h1 h2]
        exact ih _

theorem dropLast_cons_ne {α : Type _} (a : α) (l : List α) (h : l ≠ []) :
    (a :: l).dropLast = a :: l.dropLast := by
  cases l with
  | nil => exact absurd rfl h
  | cons b t => rfl

theorem getLastD_congr {α : Type _} (l : List α) (h : l ≠ []) (d d' : α) :
    l.getLastD d = l.getLastD d' := by
  cases l with
  | nil => exact absurd rfl h
  | cons b t => rw [List.getLastD_cons, List.getLastD_cons]

/-- Splitting the merging loop at an append boundary: merging `xs ++ ys` is
merging `xs`, then merging `ys` into the trailing part of that result. -/
theorem mergePartsAux_append (a : Part) (xs ys : List Part) :
    mergePartsAux a (xs ++ ys) =
      (mergePartsAux a xs).dropLast ++
        mergePartsAux ((mergePartsAux a xs).getLastD a) ys := by
  induction xs generalizing a with
  | nil => simp [mergePartsAux_nil]
  | cons p rest ih =>
    have hcons : (p :: rest) ++ ys = p :: (rest ++ ys) := rfl
    by_cases h1 : a.textStr = ""
    · rw [hcons, mergePartsAux_cons_app a p (rest ++ ys) (Or.inl h1),
          mergePartsAux_cons_app a p rest (Or.inl h1), ih p,
          dropLast_cons_ne a (mergePartsAux p rest) (mergePartsAux_ne_nil p rest),
          List.getLastD_cons,
          getLastD_congr (mergePartsAux p rest) (mergePartsAux_ne_nil p rest) p a]
      rfl
    · by_cases h2 : p.textStr = ""
      · rw [hcons, mergePartsAux_cons_app a p (rest ++ ys) (Or.inr h2),
            mergePartsAux_cons_app a p rest (Or.inr h2), ih p,
            dropLast_cons_ne a (mergePartsAux p rest) (mergePartsAux_ne_nil p rest),
            List.getLastD_cons,
            getLastD_congr (mergePartsAux p rest) (mergePartsAux_ne_nil p rest) p a]
        rfl
      · rw [hcons, mergePartsAux_cons_merge a p (rest ++ ys) h1 h2,
            mergePartsAux_cons_merge a p rest h1 h2, ih _]
        rw [getLastD_congr (mergePartsAux (Part.text (a.textStr ++ p.textStr)) rest)
              (mergePartsAux_ne_nil _ rest) (Part.text (a.textStr ++ p.textStr)) a]

/-- A list already in merged form (no two adjacent parts with nonempty text)
is replayed verbatim by the merging loop: merging `rs ++ ys` starting from `a`
keeps `a :: rs` intact and only merges `ys` into its trailing part. -/
theorem mergePartsAux_absorb (a : Part) (rs ys : List Part)
    (h : List.Chain' PartBoundary (a :: rs)) :
    mergePartsAux a (rs ++ ys) =
      (a :: rs).dropLast ++ mergePartsAux ((a :: rs).getLastD a) ys := by
  induction rs generalizing a with
  | nil => simp [List.getLastD_cons]
  | cons r rs' ih =>
    rw [List.chain'_cons] at h
    have hcons : (r :: rs') ++ ys = r :: (rs' ++ ys) := rfl
    rw [hcons, mergePartsAux_cons_app a r (rs' ++ ys) h.1, ih r h.2,
        dropLast_cons_ne a (r :: rs') (by simp)]
    simp only [List.getLastD_cons]
    rfl

/-- Merging loop seeded with the head of the list (`merged_parts = [parts.pop(0)]`). -/
def joinParts : List Part → List Part
  | [] => []
  | p :: ps => mergePartsAux p ps

theorem joinParts_ne_nil (xs : List Part) (h : xs ≠ []) : joinParts xs ≠ [] := by
  cases xs with
  | nil => exact absurd rfl h
  | cons p ps => exact mergePartsAux_ne_nil p ps

/-- Fold-compatibility of part merging: re-merging an already-merged prefix
followed by new parts gives the same result as merging everything at once. -/
theorem joinParts_compat (xs ys : List Part) (h : xs ≠ []) :
    joinParts (joinParts xs ++ ys) = joinParts (xs ++ ys) := by
  cases xs with
  | nil => exact absurd rfl h
  | cons p ps =>
    obtain ⟨a, rs, hM⟩ : ∃ a rs, mergePartsAux p ps = a :: rs := by
      cases hM : mergePartsAux p ps with
      | nil => exact absurd hM (mergePartsAux_ne_nil p ps)
      | cons a rs => exact ⟨a, rs, rfl⟩
    have hchain : List.Chain' PartBoundary (a :: rs) := by
      rw [← hM]; exact mergePartsAux_chain p ps
    show joinParts (mergePartsAux p ps ++ ys) = joinParts (p :: (ps ++ ys))
    rw [hM]
    show mergePartsAux a (rs ++ ys) = mergePartsAux p (ps ++ ys)
    rw [mergePartsAux_absorb a rs ys hchain, mergePartsAux_append p ps ys, hM,
        getLastD_congr (a :: rs) (by simp) a p]

end glm

namespace glm

/-- Evaluation form of `_join_contents` on a non-empty list, phrased with
`joinParts` and an emptiness test instead of the inner match. -/
theorem _join_contents_eq (c0 : Content) (rest : List Content) :
    _join_contents (c0 :: rest) =
      if (c0 :: rest).all (fun c => c.role == c0.role) then
        (if ((c0 :: rest).map (·.parts)).flatten = [] then none
         else some ⟨c0.role, joinParts (((c0 :: rest).map (·.parts)).flatten)⟩)
      else none := by
  by_cases hr : (c0 :: rest).all (fun c => c.role == c0.role)
  · cases hfl : ((c0 :: rest).map (·.parts)).flatten with
    | nil =>
      simp only [List.map_cons, List.flatten_cons] at hfl
      simp [_join_contents, hr, hfl]
    | cons p ps =>
      simp only [List.map_cons, List.flatten_cons] at hfl
      simp [_join_contents, hr, hfl, joinParts]
  · simp [_join_contents, hr]

theorem _join_contents_role (c0 : Content) (rest : List Content) (m : Content)
    (h : _join_contents (c0 :: rest) = some m) :
    m.role = c0.role := by
  rw [_join_contents_eq] at h
  by_cases hr : (c0 :: rest).all (fun c => c.role == c0.role)
  · rw [if_pos hr] at h
    by_cases hfl : ((c0 :: rest).map (·.parts)).flatten = []
    · rw [if_pos hfl] at h; exact absurd h (by simp)
    · rw [if_neg hfl] at h
      have := Option.some.inj h
      rw [← this]
  · rw [if_neg hr] at h; exact absurd h (by simp)

theorem _join_contents_parts (cs : List Content) (m : Content)
    (h : _join_contents cs = some m) :
    m.parts = joinParts ((cs.map (·.parts)).flatten) ∧
      (cs.map (·.parts)).flatten ≠ [] := by
  cases cs with
  | nil => simp [_join_contents] at h
  | cons c0 rest =>
    rw [_join_contents_eq] at h
    by_cases hr : (c0 :: rest).all (fun c => c.role == c0.role)
    · rw [if_pos hr] at h
      by_cases hfl : ((c0 :: rest).map (·.parts)).flatten = []
      · rw [if_pos hfl] at h; exact absurd h (by simp)
      · rw [if_neg hfl] at h
        have := Option.some.inj h
        exact ⟨by rw [← this], hfl⟩
    · rw [if_neg hr] at h; exact absurd h (by simp)

theorem _join_contents_all_roles (cs : List Content) (m : Content)
    (h : _join_contents cs = some m) :
    ∀ c ∈ cs, c.role = m.role := by
  cases cs with
  | nil => simp
  | cons c0 rest =>
    have hrole := _join_contents_role c0 rest m h
    rw [_join_contents_eq] at h
    by_cases hr : (c0 :: rest).all (fun c => c.role == c0.role)
    · intro c hc
      have := List.all_eq_true.mp hr c hc
      rw [hrole]
      exact eq_of_beq this
    · rw [if_neg hr] at h; exact absurd h (by simp)

/-- Fold-compatibility of `_join_contents`: joining an already-joined content
with further contents equals joining the original contents with them, both
when the role assertion passes and when it fails. -/
theorem _join_contents_compat (cs rest : List Content) (m : Content)
    (h : _join_contents cs = some m) :
    _join_contents (m :: rest) = _join_contents (cs ++ rest) := by
  cases cs with
  | nil => simp [_join_contents] at h
  | cons c0 cs' =>
    have hrole := _join_contents_role c0 cs' m h
    obtain ⟨hparts, hne⟩ := _join_contents_parts (c0 :: cs') m h
    have hall := _join_contents_all_roles (c0 :: cs') m h
    have hcons : (c0 :: cs') ++ rest = c0 :: (cs' ++ rest) := rfl
    rw [hcons, _join_contents_eq, _join_contents_eq]
    have hrolechk :
        ((m :: rest).all (fun c => c.role == m.role)) =
          ((c0 :: (cs' ++ rest)).all (fun c => c.role == c0.role)) := by
      simp only [List.all_cons, List.all_append, hrole]
      have h1 : ∀ c ∈ cs', (c.role == c0.role) = true := by
        intro c hc
        exact beq_iff_eq.mpr (hall c (by simp [hc]) |>.trans hrole)
      have h2 : cs'.all (fun c => c.role == c0.role) = true :=
        List.all_eq_true.mpr h1
      simp [h2]
    rw [hrolechk]
    by_cases hrc : (c0 :: (cs' ++ rest)).all (fun c => c.role == c0.role)
    · rw [if_pos hrc, if_pos hrc]
      have hflat1 : ((m :: rest).map (·.parts)).flatten =
          m.parts ++ (rest.map (·.parts)).flatten := by
        simp
      have hflat2 : ((c0 :: (cs' ++ rest)).map (·.parts)).flatten =
          (((c0 :: cs').map (·.parts)).flatten) ++ (rest.map (·.parts)).flatten := by
        simp
      have hmne : m.parts ≠ [] := by
        rw [hparts]; exact joinParts_ne_nil _ hne
      have hne1 : ((m :: rest).map (·.parts)).flatten ≠ [] := by
        rw [hflat1]; simp [hmne]
      have hne2 : ((c0 :: (cs' ++ rest)).map (·.parts)).flatten ≠ [] := by
        rw [hflat2]
        intro hcontra
        exact hne (List.append_eq_nil.mp hcontra).1
      rw [if_neg hne1, if_neg hne2]
      have : joinParts (((m :: rest).map (·.parts)).flatten) =
          joinParts (((c0 :: (cs' ++ rest)).map (·.parts)).flatten) := by
        rw [hflat1, hflat2, hparts]
        exact joinParts_compat _ _ hne
      rw [this, hrole]
    · rw [if_neg hrc, if_neg hrc]

end glm

namespace glm

/-- Keys of an association list, in order. -/
def srKeys {β : Type _} (l : List (Nat × β)) : List Nat := l.map Prod.fst

/-- First value stored under a key (Python dict lookup). -/
def findVal {β : Type _} (k : Nat) : List (Nat × β) → Option β
  | [] => none
  | e :: t => if e.1 == k then some e.2 else findVal k t

theorem any_key_iff {β : Type _} (l : List (Nat × β)) (k : Nat) :
    (l.any (fun e => e.1 == k)) = true ↔ k ∈ srKeys l := by
  simp [srKeys, List.any_eq_true, List.mem_map, beq_iff_eq]

theorem findVal_append {β : Type _} (k : Nat) (l1 l2 : List (Nat × β)) :
    findVal k (l1 ++ l2) =
      (match findVal k l1 with
       | some v => some v
       | none => findVal k l2) := by
  induction l1 with
  | nil => simp [findVal]
  | cons e t ih =>
    by_cases h : e.1 == k
    · simp [findVal, h]
    · simp only [List.cons_append, findVal, h]
      simpa using ih

theorem findVal_isSome_iff_mem {β : Type _} (k : Nat) (l : List (Nat × β)) :
    (findVal k l).isSome = true ↔ k ∈ srKeys l := by
  induction l with
  | nil => simp [findVal, srKeys]
  | cons e t ih =>
    by_cases h : e.1 == k
    · simp [findVal, h, srKeys, eq_of_beq h]
    · have hne : ¬(k = e.1) := fun hk => h (by simp [hk])
      rw [show findVal k (e :: t) = findVal k t by simp [findVal, h]]
      rw [ih]
      simp [srKeys, hne]

theorem srKeys_map_preserve {β γ : Type _} (l : List (Nat × β))
    (g : Nat × β → Nat × γ) (hg : ∀ e, (g e).1 = e.1) :
    srKeys (l.map g) = srKeys l := by
  induction l with
  | nil => rfl
  | cons e t ih =>
    simp only [List.map_cons, srKeys] at ih ⊢
    rw [hg e, ih]

theorem srKeys_updRatings (r : List (Nat × Nat)) (cat prob : Nat) :
    srKeys (updRatings r cat prob) =
      if cat ∈ srKeys r then srKeys r else srKeys r ++ [cat] := by
  by_cases h : (r.any (fun e => e.1 == cat)) = true
  · rw [updRatings, if_pos h, if_pos ((any_key_iff r cat).mp h)]
    apply srKeys_map_preserve
    intro e
    by_cases he : e.1 == cat <;> simp [he]
  · rw [updRatings, if_neg (by simpa using h),
        if_neg (fun hm => h ((any_key_iff r cat).mpr hm))]
    simp [srKeys]

theorem srKeys_updBlocked (b : List (Nat × List Bool)) (cat : Nat) (fl : Bool) :
    srKeys (updBlocked b cat fl) =
      if cat ∈ srKeys b then srKeys b else srKeys b ++ [cat] := by
  by_cases h : (b.any (fun e => e.1 == cat)) = true
  · rw [updBlocked, if_pos h, if_pos ((any_key_iff b cat).mp h)]
    apply srKeys_map_preserve
    intro e
    by_cases he : e.1 == cat <;> simp [he]
  · rw [updBlocked, if_neg (by simpa using h),
        if_neg (fun hm => h ((any_key_iff b cat).mpr hm))]
    simp [srKeys]

theorem srStep_keys_sync (st : List (Nat × Nat) × List (Nat × List Bool))
    (r : SafetyRating) (h : srKeys st.1 = srKeys st.2) :
    srKeys (srStep st r).1 = srKeys (srStep st r).2 := by
  simp only [srStep, srKeys_updRatings, srKeys_updBlocked, h]

theorem foldl_srStep_keys_sync (L : List SafetyRating)
    (st : List (Nat × Nat) × List (Nat × List Bool))
    (h : srKeys st.1 = srKeys st.2) :
    srKeys (L.foldl srStep st).1 = srKeys (L.foldl srStep st).2 := by
  induction L generalizing st with
  | nil => exact h
  | cons r rest ih => exact ih (srStep st r) (srStep_keys_sync st r h)

theorem srKeys_srStep_fst (st : List (Nat × Nat) × List (Nat × List Bool))
    (r : SafetyRating) :
    srKeys (srStep st r).1 =
      if r.category ∈ srKeys st.1 then srKeys st.1
      else srKeys st.1 ++ [r.category] := by
  simp [srStep, srKeys_updRatings]

theorem srStep_nodup (st : List (Nat × Nat) × List (Nat × List Bool))
    (r : SafetyRating) (h : (srKeys st.1).Nodup) :
    (srKeys (srStep st r).1).Nodup := by
  rw [srKeys_srStep_fst]
  by_cases hm : r.category ∈ srKeys st.1
  · rw [if_pos hm]; exact h
  · rw [if_neg hm]
    simp [List.nodup_append, h, hm]

theorem foldl_srStep_nodup (L : List SafetyRating)
    (st : List (Nat × Nat) × List (Nat × List Bool))
    (h : (srKeys st.1).Nodup) :
    (srKeys (L.foldl srStep st).1).Nodup := by
  induction L generalizing st with
  | nil => exact h
  | cons r rest ih => exact ih (srStep st r) (srStep_nodup st r h)

theorem foldl_srStep_keys_mem (L : List SafetyRating)
    (st : List (Nat × Nat) × List (Nat × List Bool)) (c : Nat) :
    c ∈ srKeys (L.foldl srStep st).1 ↔
      c ∈ srKeys st.1 ∨ c ∈ L.map (·.category) := by
  induction L generalizing st with
  | nil => simp
  | cons r rest ih =>
    rw [List.foldl_cons, ih, srKeys_srStep_fst]
    by_cases hm : r.category ∈ srKeys st.1
    · rw [if_pos hm]
      have hsub : c = r.category → c ∈ srKeys st.1 := fun hc => hc ▸ hm
      simp only [List.map_cons, List.mem_cons]
      tauto
    · rw [if_neg hm]
      have hiff : c ∈ srKeys st.1 ++ [r.category] ↔
          c ∈ srKeys st.1 ∨ c = r.category := by simp
      rw [hiff]
      simp only [List.map_cons, List.mem_cons]
      tauto

end glm

namespace glm

theorem findVal_map_upd {β : Type _} (b : List (Nat × β)) (cat : Nat) (f : β → β) :
    findVal cat (b.map (fun e => if e.1 == cat then (e.1, f e.2) else e)) =
      (findVal cat b).map f := by
  induction b with
  | nil => simp [findVal]
  | cons e t ih =>
    by_cases h : e.1 == cat
    · simp [findVal, h]
    · simp [findVal, h]
      simpa using ih

theorem findVal_map_upd_other {β : Type _} (b : List (Nat × β)) (cat : Nat)
    (f : β → β) (c : Nat) (h : ¬(c = cat)) :
    findVal c (b.map (fun e => if e.1 == cat then (e.1, f e.2) else e)) =
      findVal c b := by
  induction b with
  | nil => simp
  | cons e t ih =>
    by_cases he : e.1 == cat
    · have hnc : ¬(e.1 == c) = true := by
        intro hc
        exact h ((eq_of_beq hc).symm.trans (eq_of_beq he))
      simp [findVal, he, hnc]
      simpa using ih
    · by_cases hc : e.1 == c
      · simp [findVal, he, hc]
      · simp [findVal, he, hc]
        simpa using ih

theorem findVal_updRatings_self (r : List (Nat × Nat)) (cat prob : Nat) :
    findVal cat (updRatings r cat prob) = some prob := by
  rw [updRatings]
  by_cases h : (r.any (fun e => e.1 == cat)) = true
  · rw [if_pos h]
    have := findVal_map_upd r cat (fun _ => prob)
    rw [this]
    have hs : (findVal cat r).isSome = true :=
      (findVal_isSome_iff_mem cat r).mpr ((any_key_iff r cat).mp h)
    cases hv : findVal cat r with
    | none => rw [hv] at hs; simp at hs
    | some v => simp
  · rw [if_neg (by simpa using h), findVal_append]
    have hs : ¬(findVal cat r).isSome = true := by
      rw [findVal_isSome_iff_mem]
      exact fun hm => h ((any_key_iff r cat).mpr hm)
    cases hv : findVal cat r with
    | none => simp [findVal]
    | some v => rw [hv] at hs; simp at hs

theorem findVal_updRatings_other (r : List (Nat × Nat)) (cat prob c : Nat)
    (h : ¬(c = cat)) :
    findVal c (updRatings r cat prob) = findVal c r := by
  rw [updRatings]
  by_cases hb : (r.any (fun e => e.1 == cat)) = true
  · rw [if_pos hb]
    exact findVal_map_upd_other r cat (fun _ => prob) c h
  · rw [if_neg (by simpa using hb), findVal_append]
    have hcc : ¬(cat = c) := fun hc => h hc.symm
    cases hv : findVal c r with
    | none => simp [findVal, hcc]
    | some v => simp

theorem findVal_updBlocked_self (b : List (Nat × List Bool)) (cat : Nat)
    (fl : Bool) :
    findVal cat (updBlocked b cat fl) =
      some ((match findVal cat b with | some l => l | none => []) ++ [fl]) := by
  rw [updBlocked]
  by_cases h : (b.any (fun e => e.1 == cat)) = true
  · rw [if_pos h]
    rw [findVal_map_upd b cat (fun l => l ++ [fl])]
    have hs : (findVal cat b).isSome = true :=
      (findVal_isSome_iff_mem cat b).mpr ((any_key_iff b cat).mp h)
    cases hv : findVal cat b with
    | none => rw [hv] at hs; simp at hs
    | some v => simp
  · rw [if_neg (by simpa using h), findVal_append]
    have hs : ¬(findVal cat b).isSome = true := by
      rw [findVal_isSome_iff_mem]
      exact fun hm => h ((any_key_iff b cat).mpr hm)
    cases hv : findVal cat b with
    | none => simp [findVal]
    | some v => rw [hv] at hs; simp at hs

theorem findVal_updBlocked_other (b : List (Nat × List Bool)) (cat : Nat)
    (fl : Bool) (c : Nat) (h : ¬(c = cat)) :
    findVal c (updBlocked b cat fl) = findVal c b := by
  rw [updBlocked]
  by_cases hb : (b.any (fun e => e.1 == cat)) = true
  · rw [if_pos hb]
    exact findVal_map_upd_other b cat (fun l => l ++ [fl]) c h
  · rw [if_neg (by simpa using hb), findVal_append]
    have hcc : ¬(cat = c) := fun hc => h hc.symm
    cases hv : findVal c b with
    | none => simp [findVal, hcc]
    | some v => simp

/-- Probability carried by the last rating of category `c` in `flat`
(the specification's "last-seen probability wins"). -/
def lastProbability (flat : List SafetyRating) (c : Nat) : Option Nat :=
  ((flat.filter (fun r => r.category == c)).getLast?).map (·.probability)

/-- Blocked flags of category `c` in `flat`, in order. -/
def flagsOf (flat : List SafetyRating) (c : Nat) : List Bool :=
  (flat.filter (fun r => r.category == c)).map (·.blocked)

/-- Whether any rating of category `c` in `flat` was blocked
(the specification's "any-blocked wins"). -/
def anyBlockedOf (flat : List SafetyRating) (c : Nat) : Bool :=
  (flat.filter (fun r => r.category == c)).any (·.blocked)

theorem getLast?_cons_eq {α : Type _} (a : α) (l : List α) :
    (a :: l).getLast? = some (l.getLastD a) := by
  induction l generalizing a with
  | nil => rfl
  | cons b t ih => rw [List.getLastD_cons]; exact ih b

theorem foldl_srStep_findVal_fst (L : List SafetyRating)
    (st : List (Nat × Nat) × List (Nat × List Bool)) (c : Nat) :
    findVal c (L.foldl srStep st).1 =
      (match lastProbability L c with
       | some p => some p
       | none => findVal c st.1) := by
  induction L generalizing st with
  | nil => simp [lastProbability]
  | cons r rest ih =>
    rw [List.foldl_cons, ih]
    by_cases hc : (r.category == c) = true
    · have hcc : c = r.category := (eq_of_beq hc).symm
      have hfilter : (r :: rest).filter (fun x => x.category == c) =
          r :: rest.filter (fun x => x.category == c) := by
        simp [List.filter_cons, hc]
      cases hrest : (rest.filter (fun x => x.category == c)).getLast? with
      | none =>
        have hnil : rest.filter (fun x => x.category == c) = [] :=
          List.getLast?_eq_none_iff.mp hrest
        have hself : findVal c (srStep st r).1 = some r.probability := by
          simp only [srStep]
          rw [hcc]
          exact findVal_updRatings_self st.1 r.category r.probability
        simp [lastProbability, hfilter, hnil, getLast?_cons_eq, hself, hrest]
      | some rl =>
        have hne : rest.filter (fun x => x.category == c) ≠ [] := by
          intro hnil; rw [hnil] at hrest; simp at hrest
        have hgl : ((r :: rest).filter (fun x => x.category == c)).getLast? =
            some rl := by
          rw [hfilter, getLast?_cons_eq]
          cases hfl : rest.filter (fun x => x.category == c) with
          | nil => exact absurd hfl hne
          | cons f fs =>
            rw [hfl, getLast?_cons_eq] at hrest
            rw [List.getLastD_cons]
            exact hrest
        simp [lastProbability, hgl, hrest]
    · have hfilter : (r :: rest).filter (fun x => x.category == c) =
          rest.filter (fun x => x.category == c) := by
        simp [List.filter_cons, hc]
      have hother : findVal c (srStep st r).1 = findVal c st.1 := by
        simp only [srStep]
        exact findVal_updRatings_other st.1 r.category r.probability c
          (fun h => hc (by simp [h]))
      simp [lastProbability, hfilter, hother]

theorem foldl_srStep_findVal_snd (L : List SafetyRating)
    (st : List (Nat × Nat) × List (Nat × List Bool)) (c : Nat) :
    findVal c (L.foldl srStep st).2 =
      (match findVal c st.2 with
       | some fl => some (fl ++ flagsOf L c)
       | none => if flagsOf L c = [] then none else some (flagsOf L c)) := by
  induction L generalizing st with
  | nil =>
    cases hv : findVal c st.2 with
    | none => simp [flagsOf, hv]
    | some fl => simp [flagsOf, hv]
  | cons r rest ih =>
    rw [List.foldl_cons, ih]
    by_cases hc : (r.category == c) = true
    · have hcc : c = r.category := (eq_of_beq hc).symm
      have hflags : flagsOf (r :: rest) c = r.blocked :: flagsOf rest c := by
        simp [flagsOf, List.filter_cons, hc]
      have hself : findVal c (srStep st r).2 =
          some ((match findVal c st.2 with | some l => l | none => []) ++
            [r.blocked]) := by
        simp only [srStep]
        rw [hcc]
        exact findVal_updBlocked_self st.2 r.category r.blocked
      rw [hself, hflags]
      cases hv : findVal c st.2 with
      | none => simp
      | some fl => simp
    · have hflags : flagsOf (r :: rest) c = flagsOf rest c := by
        simp [flagsOf, List.filter_cons, hc]
      have hother : findVal c (srStep st r).2 = findVal c st.2 := by
        simp only [srStep]
        exact findVal_updBlocked_other st.2 r.category r.blocked c
          (fun h => hc (by simp [h]))
      rw [hother, hflags]

theorem srState_findVal_fst (flat : List SafetyRating) (c : Nat) :
    findVal c (flat.foldl srStep ([], [])).1 = lastProbability flat c := by
  rw [foldl_srStep_findVal_fst]
  cases h : lastProbability flat c with
  | none => simp [findVal]
  | some p => simp

theorem srState_findVal_snd (flat : List SafetyRating) (c : Nat) :
    findVal c (flat.foldl srStep ([], [])).2 =
      (if flagsOf flat c = [] then none else some (flagsOf flat c)) := by
  rw [foldl_srStep_findVal_snd]
  simp [findVal]

end glm

namespace glm

/-- The list rebuilt by `_join_safety_ratings_lists` from its final dict state:
`zip(ratings.items(), blocked.values())` with `any` collapsing the flags. -/
def srOutput (st : List (Nat × Nat) × List (Nat × List Bool)) :
    List SafetyRating :=
  (st.1.zip (st.2.map (fun e => e.2.any id))).map (fun pq => ⟨pq.1.1, pq.1.2, pq.2⟩)

theorem _join_safety_ratings_lists_eq (ls : List (List SafetyRating)) :
    _join_safety_ratings_lists ls = srOutput (ls.flatten.foldl srStep ([], [])) :=
  rfl

theorem srOutput_cons (a : Nat × Nat) (b : Nat × List Bool)
    (t1 : List (Nat × Nat)) (t2 : List (Nat × List Bool)) :
    srOutput (a :: t1, b :: t2) =
      ⟨a.1, a.2, b.2.any id⟩ :: srOutput (t1, t2) := rfl

theorem srOutput_map_category (s1 : List (Nat × Nat))
    (s2 : List (Nat × List Bool)) (hsync : srKeys s1 = srKeys s2) :
    (srOutput (s1, s2)).map (·.category) = srKeys s1 := by
  induction s1 generalizing s2 with
  | nil => simp [srOutput, srKeys]
  | cons a t1 ih =>
    cases s2 with
    | nil => simp [srKeys] at hsync
    | cons b t2 =>
      simp only [srKeys, List.map_cons, List.cons.injEq] at hsync
      rw [srOutput_cons]
      simp only [List.map_cons, srKeys]
      rw [ih t2 hsync.2]
      rfl

theorem flagsOf_any (flat : List SafetyRating) (c : Nat) :
    (flagsOf flat c).any id = anyBlockedOf flat c := by
  unfold flagsOf anyBlockedOf
  induction flat with
  | nil => rfl
  | cons r t ih =>
    by_cases h : r.category == c
    · simp only [List.filter_cons, h, if_true, List.map_cons, List.any_cons, ih]
      rfl
    · simp only [List.filter_cons, h, Bool.false_eq_true, if_false, ih]

theorem srOutput_mem (s1 : List (Nat × Nat)) (s2 : List (Nat × List Bool))
    (hsync : srKeys s1 = srKeys s2) (hnd : (srKeys s1).Nodup) :
    ∀ r ∈ srOutput (s1, s2),
      findVal r.category s1 = some r.probability ∧
      ∃ fl, findVal r.category s2 = some fl ∧ fl.any id = r.blocked := by
  induction s1 generalizing s2 with
  | nil => simp [srOutput]
  | cons a t1 ih =>
    cases s2 with
    | nil => simp [srKeys] at hsync
    | cons b t2 =>
      simp only [srKeys, List.map_cons, List.cons.injEq] at hsync
      intro r hr
      rw [srOutput_cons] at hr
      rcases List.mem_cons.mp hr with hr | hr
      · subst hr
        refine ⟨by simp [findVal], b.2, ?_, rfl⟩
        have : (b.1 == a.1) = true := by simp [hsync.1]
        simp [findVal, this]
      · have hnd' : (srKeys t1).Nodup := by
          simp only [srKeys, List.map_cons, List.nodup_cons] at hnd
          exact hnd.2
        obtain ⟨h1, fl, h2, h3⟩ := ih t2 hsync.2 hnd' r hr
        have hrmem : r.category ∈ srKeys t1 := by
          have := srOutput_map_category t1 t2 hsync.2
          rw [← this]
          exact List.mem_map_of_mem (·.category) hr
        have hna : a.1 ∉ srKeys t1 := by
          simp only [srKeys, List.map_cons, List.nodup_cons] at hnd
          exact hnd.1
        have hne : ¬(a.1 == r.category) = true := by
          intro hc
          exact hna ((eq_of_beq hc) ▸ hrmem)
        have hne2 : ¬(b.1 == r.category) = true := by
          rw [hsync.1] at hne
          exact hne
        refine ⟨?_, fl, ?_, h3⟩
        · rw [show findVal r.category (a :: t1) = findVal r.category t1 from
            by simp [findVal, hne]]
          exact h1
        · rw [show findVal r.category (b :: t2) = findVal r.category t2 from
            by simp [findVal, hne2]]
          exact h2

end glm

/-- C3: `_join_safety_ratings_lists` yields exactly one rating per distinct
category of the input, carrying that category's last-seen probability and a
blocked flag that is true iff any input rating for that category was blocked:
the positional zip of the two dict iterations pairs every category with its
own probability and its own any-blocked flag. -/
theorem c3_safety_ratings_merge (ls : List (List glm.SafetyRating)) :
    ((glm._join_safety_ratings_lists ls).map (·.category)).Nodup ∧
    (∀ c : Nat, c ∈ (glm._join_safety_ratings_lists ls).map (·.category) ↔
        c ∈ ls.flatten.map (·.category)) ∧
    (∀ r ∈ glm._join_safety_ratings_lists ls,
        glm.lastProbability ls.flatten r.category = some r.probability ∧
        r.blocked = glm.anyBlockedOf ls.flatten r.category) := by
  have hsync := glm.foldl_srStep_keys_sync ls.flatten ([], []) rfl
  have hnd := glm.foldl_srStep_nodup ls.flatten ([], []) (by simp [glm.srKeys])
  have heq := glm._join_safety_ratings_lists_eq ls
  have hmapcat :
      (glm._join_safety_ratings_lists ls).map (·.category) =
        glm.srKeys (ls.flatten.foldl glm.srStep ([], [])).1 := by
    rw [heq]
    exact glm.srOutput_map_category _ _ hsync
  refine ⟨?_, ?_, ?_⟩
  · rw [hmapcat]; exact hnd
  · intro c
    rw [hmapcat, glm.foldl_srStep_keys_mem]
    simp [glm.srKeys]
  · intro r hr
    rw [heq] at hr
    obtain ⟨h1, fl, h2, h3⟩ := glm.srOutput_mem _ _ hsync hnd r hr
    constructor
    · rw [← glm.srState_findVal_fst ls.flatten r.category]
      exact h1
    · rw [glm.srState_findVal_snd ls.flatten r.category] at h2
      by_cases hemp : glm.flagsOf ls.flatten r.category = []
      · rw [if_pos hemp] at h2; exact absurd h2 (by simp)
      · rw [if_neg hemp] at h2
        have hfl : fl = glm.flagsOf ls.flatten r.category :=
          (Option.some.inj h2).symm
        rw [← h3, hfl]
        exact glm.flagsOf_any ls.flatten r.category

/-- Witness for C3 at a concrete input: category 1 rated probability 2 then 5,
blocked false then true, merges to probability 5 and blocked true. -/
theorem c3_safety_ratings_merge_witness :
    glm.lastProbability
        ([[⟨1, 2, false⟩], [⟨1, 5, true⟩]] :
          List (List glm.SafetyRating)).flatten 1 = some 5 ∧
    (true : Bool) =
      glm.anyBlockedOf
        ([[⟨1, 2, false⟩], [⟨1, 5, true⟩]] :
          List (List glm.SafetyRating)).flatten 1 := by
  have h := (c3_safety_ratings_merge [[⟨1, 2, false⟩], [⟨1, 5, true⟩]]).2.2
    ⟨1, 5, true⟩ (by decide)
  exact h

namespace glm

/-- Collapse each blocked-flag list to its `any`: the only information about
the `blocked` dict that the final output reads. -/
def srAny (b : List (Nat × List Bool)) : List (Nat × Bool) :=
  b.map (fun e => (e.1, e.2.any id))

theorem srKeys_srAny (b : List (Nat × List Bool)) :
    srKeys (srAny b) = srKeys b := by
  unfold srAny
  exact srKeys_map_preserve b (fun e => (e.1, e.2.any id)) (fun e => rfl)

/-- The collapsed image of one `blocked` update, phrased purely in terms of
the collapsed state. -/
def updAnyB (ab : List (Nat × Bool)) (cat : Nat) (fl : Bool) :
    List (Nat × Bool) :=
  if ab.any (fun e => e.1 == cat) then
    ab.map (fun e => if e.1 == cat then (e.1, e.2 || fl) else e)
  else ab ++ [(cat, fl)]

theorem srAny_updBlocked (b : List (Nat × List Bool)) (cat : Nat) (fl : Bool) :
    srAny (updBlocked b cat fl) = updAnyB (srAny b) cat fl := by
  have hcond : (b.any (fun e => e.1 == cat)) =
      ((srAny b).any (fun e => e.1 == cat)) := by
    by_cases h : (b.any (fun e => e.1 == cat)) = true
    · rw [h]
      exact ((any_key_iff (srAny b) cat).mpr
        ((srKeys_srAny b) ▸ (any_key_iff b cat).mp h)).symm
    · have h' : ¬((srAny b).any (fun e => e.1 == cat)) = true := by
        intro hc
        exact h ((any_key_iff b cat).mpr
          ((srKeys_srAny b) ▸ (any_key_iff (srAny b) cat).mp hc))
      simp only [Bool.not_eq_true] at h h'
      rw [h, h']
  by_cases h : (b.any (fun e => e.1 == cat)) = true
  · rw [updBlocked, if_pos h, updAnyB, if_pos (hcond ▸ h)]
    unfold srAny
    rw [List.map_map, List.map_map]
    apply List.map_congr_left
    intro e _
    by_cases he : (e.1 == cat) = true
    · have he' : e.1 = cat := eq_of_beq he
      simp [he', List.any_append]
    · have he' : ¬e.1 = cat := fun hc => he (by simp [hc])
      simp [he']
  · rw [updBlocked, if_neg (by simpa using h), updAnyB,
        if_neg (by rw [← hcond]; simpa using h)]
    unfold srAny
    simp

theorem srStep_congr (st st' : List (Nat × Nat) × List (Nat × List Bool))
    (r : SafetyRating) (h1 : st.1 = st'.1) (h2 : srAny st.2 = srAny st'.2) :
    (srStep st r).1 = (srStep st' r).1 ∧
      srAny (srStep st r).2 = srAny (srStep st' r).2 := by
  constructor
  · simp only [srStep]
    rw [h1]
  · simp only [srStep]
    rw [srAny_updBlocked, srAny_updBlocked, h2]

theorem foldl_srStep_congr (L : List SafetyRating)
    (st st' : List (Nat × Nat) × List (Nat × List Bool))
    (h1 : st.1 = st'.1) (h2 : srAny st.2 = srAny st'.2) :
    (L.foldl srStep st).1 = (L.foldl srStep st').1 ∧
      srAny (L.foldl srStep st).2 = srAny (L.foldl srStep st').2 := by
  induction L generalizing st st' with
  | nil => exact ⟨h1, h2⟩
  | cons r rest ih =>
    obtain ⟨g1, g2⟩ := srStep_congr st st' r h1 h2
    exact ih (srStep st r) (srStep st' r) g1 g2

theorem srOutput_congr (st st' : List (Nat × Nat) × List (Nat × List Bool))
    (h1 : st.1 = st'.1) (h2 : srAny st.2 = srAny st'.2) :
    srOutput st = srOutput st' := by
  have hmap : ∀ b : List (Nat × List Bool),
      b.map (fun e => e.2.any id) = (srAny b).map Prod.snd := by
    intro b
    unfold srAny
    rw [List.map_map]
    rfl
  unfold srOutput
  rw [h1, hmap, hmap, h2]

/-- Replaying ratings with pairwise-distinct fresh categories just appends
their entries to both dict states in order. -/
theorem foldl_srStep_fresh (rs : List SafetyRating)
    (st : List (Nat × Nat) × List (Nat × List Bool))
    (hfresh1 : ∀ r ∈ rs, r.category ∉ srKeys st.1)
    (hfresh2 : ∀ r ∈ rs, r.category ∉ srKeys st.2)
    (hnd : (rs.map (·.category)).Nodup) :
    rs.foldl srStep st =
      (st.1 ++ rs.map (fun r => (r.category, r.probability)),
       st.2 ++ rs.map (fun r => (r.category, [r.blocked]))) := by
  induction rs generalizing st with
  | nil => simp
  | cons r rest ih =>
    have hc1 : ¬(st.1.any (fun e => e.1 == r.category)) = true := by
      intro h
      exact hfresh1 r (by simp) ((any_key_iff st.1 r.category).mp h)
    have hc2 : ¬(st.2.any (fun e => e.1 == r.category)) = true := by
      intro h
      exact hfresh2 r (by simp) ((any_key_iff st.2 r.category).mp h)
    have hstep : srStep st r =
        (st.1 ++ [(r.category, r.probability)],
         st.2 ++ [(r.category, [r.blocked])]) := by
      simp only [srStep, updRatings, updBlocked]
      rw [if_neg (by simpa using hc1), if_neg (by simpa using hc2)]
    rw [List.foldl_cons, hstep]
    simp only [List.map_cons, List.nodup_cons] at hnd
    have hne : ∀ x ∈ rest, ¬x.category = r.category := by
      intro x hx hcx
      exact hnd.1 (hcx ▸ List.mem_map_of_mem (·.category) hx)
    rw [ih (st.1 ++ [(r.category, r.probability)],
            st.2 ++ [(r.category, [r.blocked])])
          (by
            intro x hx
            simp only [srKeys, List.map_append, List.mem_append]
            rintro (hm | hm)
            · exact hfresh1 x (by simp [hx]) hm
            · simp at hm
              exact hne x hx hm)
          (by
            intro x hx
            simp only [srKeys, List.map_append, List.mem_append]
            rintro (hm | hm)
            · exact hfresh2 x (by simp [hx]) hm
            · simp at hm
              exact hne x hx hm)
          hnd.2]
    simp

/-- Projections of the rebuilt list: the category/probability pairs are
exactly the ratings state, the category/blocked pairs exactly the collapsed
blocked state. -/
theorem srOutput_proj (s1 : List (Nat × Nat)) (s2 : List (Nat × List Bool))
    (hsync : srKeys s1 = srKeys s2) :
    (srOutput (s1, s2)).map (fun r => (r.category, r.probability)) = s1 ∧
    (srOutput (s1, s2)).map (fun r => (r.category, r.blocked)) = srAny s2 := by
  induction s1 generalizing s2 with
  | nil =>
    have : s2 = [] := by
      cases s2 with
      | nil => rfl
      | cons b t => simp [srKeys] at hsync
    subst this
    simp [srOutput, srAny]
  | cons a t1 ih =>
    cases s2 with
    | nil => simp [srKeys] at hsync
    | cons b t2 =>
      simp only [srKeys, List.map_cons, List.cons.injEq] at hsync
      obtain ⟨ih1, ih2⟩ := ih t2 hsync.2
      rw [srOutput_cons]
      constructor
      · simp only [List.map_cons, ih1]
      · simp only [List.map_cons, ih2, srAny, hsync.1]

/-- Fold-compatibility of the safety-rating merge: feeding the merged list
back in as the first element is the same as merging the original lists. -/
theorem _join_safety_ratings_lists_compat (ls rest : List (List SafetyRating)) :
    _join_safety_ratings_lists (_join_safety_ratings_lists ls :: rest) =
      _join_safety_ratings_lists (ls ++ rest) := by
  have hsync := foldl_srStep_keys_sync ls.flatten ([], []) rfl
  have hnd := foldl_srStep_nodup ls.flatten ([], []) (by simp [srKeys])
  set S := ls.flatten.foldl srStep ([], []) with hS
  have hout : _join_safety_ratings_lists ls = srOutput S :=
    _join_safety_ratings_lists_eq ls
  have houtnd : ((srOutput S).map (·.category)).Nodup := by
    rw [show srOutput S = srOutput (S.1, S.2) from rfl,
        srOutput_map_category S.1 S.2 hsync]
    exact hnd
  have hreplay : (srOutput S).foldl srStep ([], []) =
      ((srOutput S).map (fun r => (r.category, r.probability)),
       (srOutput S).map (fun r => (r.category, [r.blocked]))) := by
    apply foldl_srStep_fresh (srOutput S) ([], [])
    · intro r _; simp [srKeys]
    · intro r _; simp [srKeys]
    · exact houtnd
  obtain ⟨hp1, hp2⟩ := srOutput_proj S.1 S.2 hsync
  have hp1' : (srOutput S).map (fun r => (r.category, r.probability)) = S.1 := hp1
  have hp2' : (srOutput S).map (fun r => (r.category, r.blocked)) = srAny S.2 := hp2
  have hr1 : ((srOutput S).foldl srStep ([], [])).1 = S.1 := by
    rw [hreplay]
    exact hp1'
  have hr2 : srAny ((srOutput S).foldl srStep ([], [])).2 = srAny S.2 := by
    rw [hreplay]
    show srAny ((srOutput S).map (fun r => (r.category, [r.blocked]))) = srAny S.2
    rw [← hp2']
    unfold srAny
    rw [List.map_map]
    apply List.map_congr_left
    intro r _
    simp
  rw [_join_safety_ratings_lists_eq (_join_safety_ratings_lists ls :: rest),
      _join_safety_ratings_lists_eq (ls ++ rest), hout]
  have hflat1 : (srOutput S :: rest).flatten = srOutput S ++ rest.flatten := by
    simp
  have hflat2 : (ls ++ rest).flatten = ls.flatten ++ rest.flatten := by
    simp
  rw [hflat1, hflat2, List.foldl_append, List.foldl_append]
  obtain ⟨g1, g2⟩ := foldl_srStep_congr rest.flatten
    ((srOutput S).foldl srStep ([], [])) (ls.flatten.foldl srStep ([], []))
    (by rw [hr1]) (by rw [hr2])
  exact srOutput_congr _ _ g1 g2

end glm

namespace glm

theorem _join_citation_metadatas_compat (cms rest : List CitationMetadata) :
    _join_citation_metadatas (_join_citation_metadatas cms :: rest) =
      _join_citation_metadatas (cms ++ rest) := by
  simp [_join_citation_metadatas]

theorem getLastD_append_of_ne_nil {α : Type _} (l1 l2 : List α) (d : α)
    (h : l2 ≠ []) : (l1 ++ l2).getLastD d = l2.getLastD d := by
  induction l1 generalizing d with
  | nil => rfl
  | cons a t ih =>
    rw [List.cons_append, List.getLastD_cons, ih a]
    exact getLastD_congr l2 h a d

theorem _join_candidates_eq (c0 : Candidate) (rest : List Candidate) :
    _join_candidates (c0 :: rest) =
      (if (c0 :: rest).all (fun c => c.index == c0.index) then
        (match _join_contents ((c0 :: rest).map (·.content)) with
         | none => none
         | some content =>
           some ⟨c0.index, content, (rest.getLastD c0).finish_reason,
                 _join_safety_ratings_lists ((c0 :: rest).map (·.safety_ratings)),
                 _join_citation_metadatas ((c0 :: rest).map (·.citation_metadata))⟩)
       else none) := rfl

theorem _join_candidates_fields (c0 : Candidate) (g' : List Candidate)
    (cd : Candidate) (h : _join_candidates (c0 :: g') = some cd) :
    ((c0 :: g').all (fun c => c.index == c0.index)) = true ∧
    _join_contents ((c0 :: g').map (·.content)) = some cd.content ∧
    cd = ⟨c0.index, cd.content, (g'.getLastD c0).finish_reason,
          _join_safety_ratings_lists ((c0 :: g').map (·.safety_ratings)),
          _join_citation_metadatas ((c0 :: g').map (·.citation_metadata))⟩ := by
  rw [_join_candidates_eq] at h
  by_cases hall : ((c0 :: g').all (fun c => c.index == c0.index)) = true
  · rw [if_pos hall] at h
    cases hc : _join_contents ((c0 :: g').map (·.content)) with
    | none => rw [hc] at h; exact absurd h (by simp)
    | some content =>
      rw [hc] at h
      have hcd := Option.some.inj h
      have hfield : cd.content = content :=
        congrArg Candidate.content hcd.symm
      refine ⟨hall, ?_, ?_⟩
      · exact congrArg (fun c => some c.content) hcd
      · rw [hfield]
        exact hcd.symm
  · rw [if_neg hall] at h; exact absurd h (by simp)

/-- Fold-compatibility of `_join_candidates`: joining an already-joined
candidate with further mentions equals joining all mentions at once. -/
theorem _join_candidates_compat (c0 : Candidate) (g' rest : List Candidate)
    (cd : Candidate) (h : _join_candidates (c0 :: g') = some cd) :
    _join_candidates (cd :: rest) = _join_candidates ((c0 :: g') ++ rest) := by
  obtain ⟨hall, hcont, hcd⟩ := _join_candidates_fields c0 g' cd h
  have hidx : cd.index = c0.index := by rw [hcd]
  have hg' : g'.all (fun c => c.index == c0.index) = true := by
    have := hall
    simp only [List.all_cons, Bool.and_eq_true] at this
    exact this.2
  have happ : (c0 :: g') ++ rest = c0 :: (g' ++ rest) := rfl
  rw [happ, _join_candidates_eq, _join_candidates_eq]
  have hchk : ((cd :: rest).all (fun c => c.index == cd.index)) =
      ((c0 :: (g' ++ rest)).all (fun c => c.index == c0.index)) := by
    simp only [List.all_cons, List.all_append, hidx, hg', beq_self_eq_true,
      Bool.true_and]
  rw [hchk]
  by_cases hck : ((c0 :: (g' ++ rest)).all (fun c => c.index == c0.index)) = true
  · rw [if_pos hck, if_pos hck]
    have hsc : _join_contents ((cd :: rest).map (·.content)) =
        _join_contents ((c0 :: (g' ++ rest)).map (·.content)) := by
      have hmap : (cd :: rest).map (·.content) =
          cd.content :: rest.map (·.content) := rfl
      have hmap2 : (c0 :: (g' ++ rest)).map (·.content) =
          ((c0 :: g').map (·.content)) ++ rest.map (·.content) := by
        simp
      rw [hmap, hmap2]
      exact _join_contents_compat ((c0 :: g').map (·.content))
        (rest.map (·.content)) cd.content hcont
    rw [hsc]
    cases hc2 : _join_contents ((c0 :: (g' ++ rest)).map (·.content)) with
    | none => rfl
    | some content' =>
      have hfin : (rest.getLastD cd).finish_reason =
          ((g' ++ rest).getLastD c0).finish_reason := by
        cases rest with
        | nil =>
          simp only [List.getLastD_nil, List.append_nil]
          rw [hcd]
        | cons r rs =>
          rw [getLastD_append_of_ne_nil g' (r :: rs) c0 (by simp),
              getLastD_congr (r :: rs) (by simp) cd c0]
      have hsr : _join_safety_ratings_lists ((cd :: rest).map (·.safety_ratings)) =
          _join_safety_ratings_lists ((c0 :: (g' ++ rest)).map (·.safety_ratings)) := by
        have hmap2 : (c0 :: (g' ++ rest)).map (·.safety_ratings) =
            ((c0 :: g').map (·.safety_ratings)) ++ rest.map (·.safety_ratings) := by
          simp
        have hmap : (cd :: rest).map (·.safety_ratings) =
            _join_safety_ratings_lists ((c0 :: g').map (·.safety_ratings)) ::
              rest.map (·.safety_ratings) := by
          rw [List.map_cons, hcd]
        rw [hmap, hmap2]
        exact _join_safety_ratings_lists_compat _ _
      have hcm : _join_citation_metadatas ((cd :: rest).map (·.citation_metadata)) =
          _join_citation_metadatas ((c0 :: (g' ++ rest)).map (·.citation_metadata)) := by
        have hmap2 : (c0 :: (g' ++ rest)).map (·.citation_metadata) =
            ((c0 :: g').map (·.citation_metadata)) ++ rest.map (·.citation_metadata) := by
          simp
        have hmap : (cd :: rest).map (·.citation_metadata) =
            _join_citation_metadatas ((c0 :: g').map (·.citation_metadata)) ::
              rest.map (·.citation_metadata) := by
          rw [List.map_cons, hcd]
        rw [hmap, hmap2]
        exact _join_citation_metadatas_compat _ _
      rw [hidx, hfin, hsr, hcm]
  · rw [if_neg hck, if_neg hck]

/-- The joined candidate of a group keeps the group's shared index. -/
theorem _join_candidates_index (g : List Candidate) (cd : Candidate)
    (h : _join_candidates g = some cd) :
    ∃ c0 g', g = c0 :: g' ∧ cd.index = c0.index := by
  cases g with
  | nil => simp [_join_candidates] at h
  | cons c0 g' =>
    obtain ⟨_, _, hcd⟩ := _join_candidates_fields c0 g' cd h
    exact ⟨c0, g', rfl, by rw [hcd]⟩

/-- The joined candidate of a group carries the finish reason of the group's
last element. -/
theorem _join_candidates_finish (g : List Candidate) (cd : Candidate)
    (h : _join_candidates g = some cd) :
    (g.getLast?).map (·.finish_reason) = some cd.finish_reason := by
  cases g with
  | nil => simp [_join_candidates] at h
  | cons c0 g' =>
    obtain ⟨_, _, hcd⟩ := _join_candidates_fields c0 g' cd h
    rw [getLast?_cons_eq]
    show some ((g'.getLastD c0).finish_reason) = some cd.finish_reason
    rw [show cd.finish_reason = (g'.getLastD c0).finish_reason from by rw [hcd]]

end glm

namespace glm

theorem srKeys_addToGroups (g : List (Nat × List Candidate)) (c : Candidate) :
    srKeys (addToGroups g c) =
      if c.index ∈ srKeys g then srKeys g else srKeys g ++ [c.index] := by
  by_cases h : (g.any (fun e => e.1 == c.index)) = true
  · rw [addToGroups, if_pos h, if_pos ((any_key_iff g c.index).mp h)]
    apply srKeys_map_preserve
    intro e
    by_cases he : e.1 == c.index <;> simp [he]
  · rw [addToGroups, if_neg (by simpa using h),
        if_neg (fun hm => h ((any_key_iff g c.index).mpr hm))]
    simp [srKeys]

theorem addToGroups_nodup (g : List (Nat × List Candidate)) (c : Candidate)
    (h : (srKeys g).Nodup) : (srKeys (addToGroups g c)).Nodup := by
  rw [srKeys_addToGroups]
  by_cases hm : c.index ∈ srKeys g
  · rw [if_pos hm]; exact h
  · rw [if_neg hm]
    simp [List.nodup_append, h, hm]

theorem foldl_addToGroups_nodup (cs : List Candidate)
    (g : List (Nat × List Candidate)) (h : (srKeys g).Nodup) :
    (srKeys (cs.foldl addToGroups g)).Nodup := by
  induction cs generalizing g with
  | nil => exact h
  | cons c rest ih => exact ih (addToGroups g c) (addToGroups_nodup g c h)

theorem foldl_addToGroups_keys_mem (cs : List Candidate)
    (g : List (Nat × List Candidate)) (k : Nat) :
    k ∈ srKeys (cs.foldl addToGroups g) ↔
      k ∈ srKeys g ∨ k ∈ cs.map (·.index) := by
  induction cs generalizing g with
  | nil => simp
  | cons c rest ih =>
    rw [List.foldl_cons, ih, srKeys_addToGroups]
    by_cases hm : c.index ∈ srKeys g
    · rw [if_pos hm]
      have hsub : k = c.index → k ∈ srKeys g := fun hc => hc ▸ hm
      simp only [List.map_cons, List.mem_cons]
      tauto
    · rw [if_neg hm]
      have hiff : k ∈ srKeys g ++ [c.index] ↔
          k ∈ srKeys g ∨ k = c.index := by simp
      rw [hiff]
      simp only [List.map_cons, List.mem_cons]
      tauto

theorem findVal_addToGroups_self (g : List (Nat × List Candidate))
    (c : Candidate) :
    findVal c.index (addToGroups g c) =
      some ((match findVal c.index g with | some l => l | none => []) ++ [c]) := by
  rw [addToGroups]
  by_cases h : (g.any (fun e => e.1 == c.index)) = true
  · rw [if_pos h]
    rw [findVal_map_upd g c.index (fun l => l ++ [c])]
    have hs : (findVal c.index g).isSome = true :=
      (findVal_isSome_iff_mem c.index g).mpr ((any_key_iff g c.index).mp h)
    cases hv : findVal c.index g with
    | none => rw [hv] at hs; simp at hs
    | some v => simp
  · rw [if_neg (by simpa using h), findVal_append]
    have hs : ¬(findVal c.index g).isSome = true := by
      rw [findVal_isSome_iff_mem]
      exact fun hm => h ((any_key_iff g c.index).mpr hm)
    cases hv : findVal c.index g with
    | none => simp [findVal]
    | some v => rw [hv] at hs; simp at hs

theorem findVal_addToGroups_other (g : List (Nat × List Candidate))
    (c : Candidate) (k : Nat) (h : ¬(k = c.index)) :
    findVal k (addToGroups g c) = findVal k g := by
  rw [addToGroups]
  by_cases hb : (g.any (fun e => e.1 == c.index)) = true
  · rw [if_pos hb]
    exact findVal_map_upd_other g c.index (fun l => l ++ [c]) k h
  · rw [if_neg (by simpa using hb), findVal_append]
    have hcc : ¬(c.index = k) := fun hc => h hc.symm
    cases hv : findVal k g with
    | none => simp [findVal, hcc]
    | some v => simp

theorem foldl_addToGroups_findVal (cs : List Candidate)
    (g : List (Nat × List Candidate)) (k : Nat) :
    findVal k (cs.foldl addToGroups g) =
      (match findVal k g with
       | some l => some (l ++ cs.filter (fun d => d.index == k))
       | none =>
         if cs.filter (fun d => d.index == k) = [] then none
         else some (cs.filter (fun d => d.index == k))) := by
  induction cs generalizing g with
  | nil =>
    cases hv : findVal k g with
    | none => simp [hv]
    | some l => simp [hv]
  | cons c rest ih =>
    rw [List.foldl_cons, ih]
    by_cases hc : (c.index == k) = true
    · have hcc : k = c.index := (eq_of_beq hc).symm
      have hfilter : (c :: rest).filter (fun d => d.index == k) =
          c :: rest.filter (fun d => d.index == k) := by
        simp [List.filter_cons, hc]
      have hself : findVal k (addToGroups g c) =
          some ((match findVal k g with | some l => l | none => []) ++ [c]) := by
        rw [hcc]
        exact findVal_addToGroups_self g c
      rw [hself, hfilter]
      cases hv : findVal k g with
      | none => simp
      | some l => simp
    · have hfilter : (c :: rest).filter (fun d => d.index == k) =
          rest.filter (fun d => d.index == k) := by
        simp [List.filter_cons, hc]
      have hother : findVal k (addToGroups g c) = findVal k g :=
        findVal_addToGroups_other g c k (fun h => hc (by simp [h]))
      rw [hother, hfilter]

/-- The grouped value under key `k` is exactly the filter of the flattened
candidates with index `k`, in arrival order. -/
theorem groupsOf_findVal (cs : List Candidate) (k : Nat) :
    findVal k (cs.foldl addToGroups []) =
      (if cs.filter (fun d => d.index == k) = [] then none
       else some (cs.filter (fun d => d.index == k))) := by
  rw [foldl_addToGroups_findVal]
  simp [findVal]

end glm

namespace glm

instance : IsTotal (Nat × List Candidate) (fun a b => a.1 ≤ b.1) :=
  ⟨fun a b => Nat.le_total a.1 b.1⟩

instance : IsTrans (Nat × List Candidate) (fun a b => a.1 ≤ b.1) :=
  ⟨fun _ _ _ hab hbc => Nat.le_trans hab hbc⟩

theorem sortGroups_perm (g : List (Nat × List Candidate)) :
    List.Perm (sortGroups g) g :=
  List.perm_insertionSort _ g

theorem sortGroups_sorted (g : List (Nat × List Candidate)) :
    List.Pairwise (fun a b : Nat × List Candidate => a.1 ≤ b.1) (sortGroups g) :=
  List.sorted_insertionSort _ g

theorem sortGroups_keys_sorted (g : List (Nat × List Candidate)) :
    List.Pairwise (fun a b : Nat => a ≤ b) (srKeys (sortGroups g)) := by
  unfold srKeys
  rw [List.pairwise_map]
  exact sortGroups_sorted g

theorem sortGroups_keys_nodup (g : List (Nat × List Candidate))
    (h : (srKeys g).Nodup) : (srKeys (sortGroups g)).Nodup :=
  (((sortGroups_perm g).map Prod.fst).nodup_iff).mpr h

theorem sortGroups_keys_eq (g1 g2 : List (Nat × List Candidate))
    (hnd1 : (srKeys g1).Nodup) (hnd2 : (srKeys g2).Nodup)
    (hmem : ∀ k, k ∈ srKeys g1 ↔ k ∈ srKeys g2) :
    srKeys (sortGroups g1) = srKeys (sortGroups g2) := by
  apply List.eq_of_perm_of_sorted (r := fun a b : Nat => a ≤ b)
  · have h1 : List.Perm (srKeys (sortGroups g1)) (srKeys g1) :=
      (sortGroups_perm g1).map _
    have h2 : List.Perm (srKeys g1) (srKeys g2) :=
      (List.perm_ext_iff_of_nodup hnd1 hnd2).mpr hmem
    have h3 : List.Perm (srKeys g2) (srKeys (sortGroups g2)) :=
      ((sortGroups_perm g2).map _).symm
    exact (h1.trans h2).trans h3
  · exact sortGroups_keys_sorted g1
  · exact sortGroups_keys_sorted g2

theorem findVal_of_mem {β : Type _} (l : List (Nat × β))
    (hnd : (srKeys l).Nodup) (k : Nat) (v : β) (h : (k, v) ∈ l) :
    findVal k l = some v := by
  induction l with
  | nil => simp at h
  | cons e t ih =>
    rcases List.mem_cons.mp h with h | h
    · rw [← h]
      simp [findVal]
    · have hkt : k ∈ srKeys t := by
        have : (k, v).1 ∈ srKeys t := List.mem_map_of_mem Prod.fst h
        exact this
      have hne : ¬(e.1 == k) = true := by
        intro hc
        simp only [srKeys, List.map_cons, List.nodup_cons] at hnd
        exact hnd.1 ((eq_of_beq hc) ▸ hkt)
      rw [show findVal k (e :: t) = findVal k t from by simp [findVal, hne]]
      exact ih (by
        simp only [srKeys, List.map_cons, List.nodup_cons] at hnd
        exact hnd.2) h

theorem mem_of_findVal {β : Type _} (l : List (Nat × β)) (k : Nat) (v : β)
    (h : findVal k l = some v) : (k, v) ∈ l := by
  induction l with
  | nil => simp [findVal] at h
  | cons e t ih =>
    by_cases he : (e.1 == k) = true
    · rw [show findVal k (e :: t) = some e.2 from by simp [findVal, he]] at h
      have hv := Option.some.inj h
      have : (k, v) = e := by
        have h1 : e.1 = k := eq_of_beq he
        calc (k, v) = (e.1, e.2) := by rw [h1, hv]
          _ = e := rfl
      rw [this]
      exact List.mem_cons_self e t
    · rw [show findVal k (e :: t) = findVal k t from by simp [findVal, he]] at h
      exact List.mem_cons_of_mem e (ih h)

theorem findVal_congr_perm {β : Type _} (l1 l2 : List (Nat × β))
    (hp : List.Perm l1 l2) (hnd1 : (srKeys l1).Nodup) (k : Nat) :
    findVal k l1 = findVal k l2 := by
  have hnd2 : (srKeys l2).Nodup := ((hp.map Prod.fst).nodup_iff).mp hnd1
  cases hv : findVal k l1 with
  | some v =>
    exact (findVal_of_mem l2 hnd2 k v (hp.subset (mem_of_findVal l1 k v hv))).symm
  | none =>
    have h1 : ¬k ∈ srKeys l1 := by
      rw [← findVal_isSome_iff_mem, hv]
      simp
    have h2 : ¬k ∈ srKeys l2 := by
      intro hm
      exact h1 (((hp.map Prod.fst).mem_iff).mpr hm)
    cases hv2 : findVal k l2 with
    | none => rfl
    | some v2 =>
      exact absurd ((findVal_isSome_iff_mem k l2).mp (by rw [hv2]; rfl)) h2

end glm

namespace glm

theorem joinGroups_cons (e : Nat × List Candidate)
    (t : List (Nat × List Candidate)) :
    joinGroups (e :: t) =
      (match _join_candidates e.2 with
       | none => none
       | some cd =>
         match joinGroups t with
         | none => none
         | some tl => some (cd :: tl)) := rfl

theorem _join_candidate_lists_eq (candidate_lists : List (List Candidate)) :
    _join_candidate_lists candidate_lists =
      joinGroups (sortGroups (candidate_lists.flatten.foldl addToGroups [])) :=
  rfl

theorem joinGroups_mem (l : List (Nat × List Candidate)) (out : List Candidate)
    (h : joinGroups l = some out) :
    ∀ c ∈ out, ∃ e ∈ l, _join_candidates e.2 = some c := by
  induction l generalizing out with
  | nil =>
    have : out = [] := (Option.some.inj h).symm
    subst this
    simp
  | cons e t ih =>
    rw [joinGroups_cons] at h
    cases hj : _join_candidates e.2 with
    | none => rw [hj] at h; exact absurd h (by simp)
    | some cd =>
      rw [hj] at h
      cases ht : joinGroups t with
      | none => rw [ht] at h; exact absurd h (by simp)
      | some tl =>
        rw [ht] at h
        have hout := Option.some.inj h
        subst hout
        intro c hc
        rcases List.mem_cons.mp hc with hc | hc
        · exact ⟨e, by simp, hc ▸ hj⟩
        · obtain ⟨e', he', hj'⟩ := ih tl ht c hc
          exact ⟨e', by simp [he'], hj'⟩

theorem joinGroups_pair (l : List (Nat × List Candidate)) (out : List Candidate)
    (h : joinGroups l = some out) :
    ∀ e ∈ l, ∃ cd ∈ out, _join_candidates e.2 = some cd := by
  induction l generalizing out with
  | nil => simp
  | cons e t ih =>
    rw [joinGroups_cons] at h
    cases hj : _join_candidates e.2 with
    | none => rw [hj] at h; exact absurd h (by simp)
    | some cd =>
      rw [hj] at h
      cases ht : joinGroups t with
      | none => rw [ht] at h; exact absurd h (by simp)
      | some tl =>
        rw [ht] at h
        have hout := Option.some.inj h
        subst hout
        intro e' he'
        rcases List.mem_cons.mp he' with he' | he'
        · exact ⟨cd, by simp, he' ▸ hj⟩
        · obtain ⟨cd', hcd', hj'⟩ := ih tl ht e' he'
          exact ⟨cd', by simp [hcd'], hj'⟩

theorem joinGroups_indices (l : List (Nat × List Candidate))
    (out : List Candidate) (h : joinGroups l = some out)
    (hidx : ∀ e ∈ l, ∀ cd, _join_candidates e.2 = some cd → cd.index = e.1) :
    out.map (·.index) = srKeys l := by
  induction l generalizing out with
  | nil =>
    have : out = [] := (Option.some.inj h).symm
    subst this
    simp [srKeys]
  | cons e t ih =>
    rw [joinGroups_cons] at h
    cases hj : _join_candidates e.2 with
    | none => rw [hj] at h; exact absurd h (by simp)
    | some cd =>
      rw [hj] at h
      cases ht : joinGroups t with
      | none => rw [ht] at h; exact absurd h (by simp)
      | some tl =>
        rw [ht] at h
        have hout := Option.some.inj h
        subst hout
        simp only [List.map_cons, srKeys]
        rw [hidx e (by simp) cd hj]
        rw [show List.map (fun x => x.index) tl = srKeys t from
          ih tl ht (fun e' he' cd' hj' => hidx e' (by simp [he']) cd' hj')]
        rfl

theorem joinGroups_congr (l1 l2 : List (Nat × List Candidate))
    (h : l1.map (fun e => _join_candidates e.2) =
         l2.map (fun e => _join_candidates e.2)) :
    joinGroups l1 = joinGroups l2 := by
  induction l1 generalizing l2 with
  | nil =>
    have : l2 = [] := by
      cases l2 with
      | nil => rfl
      | cons e t => simp at h
    subst this
    rfl
  | cons e t ih =>
    cases l2 with
    | nil => simp at h
    | cons e2 t2 =>
      simp only [List.map_cons, List.cons.injEq] at h
      rw [joinGroups_cons, joinGroups_cons, h.1, ih t2 h.2]

theorem map_join_congr (s1 s2 : List (Nat × List Candidate))
    (hk : srKeys s1 = srKeys s2) (hnd : (srKeys s1).Nodup)
    (hv : ∀ k v1 v2, k ∈ srKeys s1 → findVal k s1 = some v1 →
        findVal k s2 = some v2 → _join_candidates v1 = _join_candidates v2) :
    s1.map (fun e => _join_candidates e.2) =
      s2.map (fun e => _join_candidates e.2) := by
  induction s1 generalizing s2 with
  | nil =>
    have : s2 = [] := by
      cases s2 with
      | nil => rfl
      | cons e t => simp [srKeys] at hk
    subst this
    rfl
  | cons e1 t1 ih =>
    cases s2 with
    | nil => simp [srKeys] at hk
    | cons e2 t2 =>
      simp only [srKeys, List.map_cons, List.cons.injEq] at hk
      simp only [srKeys, List.map_cons, List.nodup_cons] at hnd
      have hhead : _join_candidates e1.2 = _join_candidates e2.2 := by
        apply hv e1.1 e1.2 e2.2
        · simp [srKeys]
        · simp [findVal]
        · rw [show findVal e1.1 (e2 :: t2) = some e2.2 from by
            simp [findVal, hk.1.symm]]
      have htail : t1.map (fun e => _join_candidates e.2) =
          t2.map (fun e => _join_candidates e.2) := by
        apply ih
        · exact hk.2
        · exact hnd.2
        · intro k v1 v2 hkmem h1 h2
          have hne : ¬(e1.1 == k) = true := by
            intro hc
            exact hnd.1 ((eq_of_beq hc) ▸ hkmem)
          have hne2 : ¬(e2.1 == k) = true := by
            rw [show e2.1 = e1.1 from hk.1.symm]
            exact hne
          apply hv k v1 v2
          · exact List.mem_cons_of_mem e1.1 hkmem
          · rw [show findVal k (e1 :: t1) = findVal k t1 from by
              simp [findVal, hne]]
            exact h1
          · rw [show findVal k (e2 :: t2) = findVal k t2 from by
              simp [findVal, hne2]]
            exact h2
      simp only [List.map_cons, hhead, htail]

end glm

namespace glm

theorem filter_ne_nil_of_mem_indices (cs : List Candidate) (k : Nat)
    (h : k ∈ cs.map (·.index)) : cs.filter (fun d => d.index == k) ≠ [] := by
  obtain ⟨d, hd, hdk⟩ := List.mem_map.mp h
  intro hnil
  have hmem : d ∈ cs.filter (fun d => d.index == k) :=
    List.mem_filter.mpr ⟨hd, by simp [hdk]⟩
  rw [hnil] at hmem
  simp at hmem

theorem filter_nil_of_not_mem_indices (cs : List Candidate) (k : Nat)
    (h : ¬k ∈ cs.map (·.index)) : cs.filter (fun d => d.index == k) = [] := by
  induction cs with
  | nil => rfl
  | cons d t ih =>
    simp only [List.map_cons, List.mem_cons] at h
    have hd : ¬(d.index == k) = true := by
      intro hc
      exact h (Or.inl (eq_of_beq hc).symm)
    rw [List.filter_cons, if_neg (by simpa using hd)]
    exact ih (fun hm => h (Or.inr hm))

theorem sorted_groups_entry (cs : List Candidate) (k : Nat) (v : List Candidate)
    (hmem : (k, v) ∈ sortGroups (cs.foldl addToGroups [])) :
    v = cs.filter (fun d => d.index == k) ∧ v ≠ [] := by
  have hnd : (srKeys (cs.foldl addToGroups [])).Nodup :=
    foldl_addToGroups_nodup cs [] (by simp [srKeys])
  have hmem' : (k, v) ∈ cs.foldl addToGroups [] :=
    (sortGroups_perm _).subset hmem
  have hfv : findVal k (cs.foldl addToGroups []) = some v :=
    findVal_of_mem _ hnd k v hmem'
  rw [groupsOf_findVal] at hfv
  by_cases hf : cs.filter (fun d => d.index == k) = []
  · rw [if_pos hf] at hfv; exact absurd hfv (by simp)
  · rw [if_neg hf] at hfv
    have hv := (Option.some.inj hfv).symm
    exact ⟨hv, fun hc => hf (hv ▸ hc)⟩

theorem filter_head_index (cs : List Candidate) (k : Nat) (c0 : Candidate)
    (tail : List Candidate)
    (h : cs.filter (fun d => d.index == k) = c0 :: tail) : c0.index = k := by
  have hm : c0 ∈ cs.filter (fun d => d.index == k) := by rw [h]; simp
  exact eq_of_beq (List.mem_filter.mp hm).2

theorem entry_join_index (cs : List Candidate) (k : Nat) (v : List Candidate)
    (hmem : (k, v) ∈ sortGroups (cs.foldl addToGroups []))
    (cd : Candidate) (hj : _join_candidates v = some cd) : cd.index = k := by
  obtain ⟨hv, hne⟩ := sorted_groups_entry cs k v hmem
  obtain ⟨c0, g', hcons, hidx⟩ := _join_candidates_index v cd hj
  rw [hidx]
  exact filter_head_index cs k c0 g' (hv.symm.trans hcons)

theorem _join_candidate_lists_index_map (cls : List (List Candidate))
    (out : List Candidate) (h : _join_candidate_lists cls = some out) :
    out.map (·.index) =
      srKeys (sortGroups (cls.flatten.foldl addToGroups [])) := by
  rw [_join_candidate_lists_eq] at h
  apply joinGroups_indices _ _ h
  intro e he cd hj
  exact entry_join_index cls.flatten e.1 e.2 he cd hj

theorem _join_candidate_lists_nodup (cls : List (List Candidate))
    (out : List Candidate) (h : _join_candidate_lists cls = some out) :
    (out.map (·.index)).Nodup := by
  rw [_join_candidate_lists_index_map cls out h]
  exact sortGroups_keys_nodup _ (foldl_addToGroups_nodup _ [] (by simp [srKeys]))

theorem _join_candidate_lists_mem_indices (cls : List (List Candidate))
    (out : List Candidate) (h : _join_candidate_lists cls = some out) (k : Nat) :
    k ∈ out.map (·.index) ↔ k ∈ cls.flatten.map (·.index) := by
  rw [_join_candidate_lists_index_map cls out h]
  constructor
  · intro hm
    have hm1 : k ∈ srKeys (cls.flatten.foldl addToGroups []) :=
      ((sortGroups_perm _).map Prod.fst).mem_iff.mp hm
    have hm2 := (foldl_addToGroups_keys_mem cls.flatten [] k).mp hm1
    simpa [srKeys] using hm2
  · intro hm
    have hm1 := (foldl_addToGroups_keys_mem cls.flatten [] k).mpr (Or.inr hm)
    exact ((sortGroups_perm _).map Prod.fst).mem_iff.mpr hm1

theorem filter_eq_single_of_nodup (out : List Candidate)
    (hnd : (out.map (·.index)).Nodup) (cd : Candidate) (hcd : cd ∈ out) :
    out.filter (fun d => d.index == cd.index) = [cd] := by
  induction out with
  | nil => simp at hcd
  | cons a t ih =>
    simp only [List.map_cons, List.nodup_cons] at hnd
    rcases List.mem_cons.mp hcd with hcd | hcd
    · subst hcd
      rw [List.filter_cons, if_pos (by simp)]
      rw [filter_nil_of_not_mem_indices t cd.index hnd.1]
    · have hne : ¬(a.index == cd.index) = true := by
        intro hc
        exact hnd.1 ((eq_of_beq hc) ▸ List.mem_map_of_mem (·.index) hcd)
      rw [List.filter_cons, if_neg (by simpa using hne)]
      exact ih hnd.2 hcd

theorem out_filter_key (cls : List (List Candidate)) (out : List Candidate)
    (h : _join_candidate_lists cls = some out) (k : Nat)
    (hk : k ∈ cls.flatten.map (·.index)) :
    ∃ cd, _join_candidates (cls.flatten.filter (fun d => d.index == k)) = some cd ∧
      out.filter (fun d => d.index == k) = [cd] := by
  have hkeys : k ∈ srKeys (sortGroups (cls.flatten.foldl addToGroups [])) := by
    have hmemg := (foldl_addToGroups_keys_mem cls.flatten [] k).mpr (Or.inr hk)
    exact ((sortGroups_perm _).map Prod.fst).mem_iff.mpr hmemg
  obtain ⟨v, hv⟩ :
      ∃ v, (k, v) ∈ sortGroups (cls.flatten.foldl addToGroups []) := by
    obtain ⟨e, he, hek⟩ := List.mem_map.mp hkeys
    exact ⟨e.2, by rw [← hek]; exact he⟩
  obtain ⟨hfilter, hne⟩ := sorted_groups_entry cls.flatten k v hv
  have h' := h
  rw [_join_candidate_lists_eq] at h'
  obtain ⟨cd, hcdout, hj⟩ := joinGroups_pair _ _ h' (k, v) hv
  have hidx : cd.index = k := entry_join_index cls.flatten k v hv cd hj
  refine ⟨cd, by rw [← hfilter]; exact hj, ?_⟩
  have hsingle := filter_eq_single_of_nodup out
    (_join_candidate_lists_nodup cls out h) cd hcdout
  rw [← hidx]
  exact hsingle

theorem out_filter_nil (cls : List (List Candidate)) (out : List Candidate)
    (h : _join_candidate_lists cls = some out) (k : Nat)
    (hk : ¬k ∈ cls.flatten.map (·.index)) :
    out.filter (fun d => d.index == k) = [] := by
  apply filter_nil_of_not_mem_indices
  intro hm
  exact hk ((_join_candidate_lists_mem_indices cls out h k).mp hm)

end glm

namespace glm

/-- Fold-compatibility of `_join_candidate_lists`: the already-merged candidate
list, re-grouped together with further messages' candidate lists, joins to the
same result as grouping all the original lists with them. -/
theorem _join_candidate_lists_compat (css rest : List (List Candidate))
    (out : List Candidate) (h : _join_candidate_lists css = some out) :
    _join_candidate_lists (out :: rest) = _join_candidate_lists (css ++ rest) := by
  have hndF : (srKeys (css.flatten.foldl addToGroups [])).Nodup :=
    foldl_addToGroups_nodup css.flatten [] (by simp [srKeys])
  have houtnd : (out.map (·.index)).Nodup := _join_candidate_lists_nodup css out h
  have houtmem : ∀ k, k ∈ out.map (·.index) ↔ k ∈ css.flatten.map (·.index) :=
    _join_candidate_lists_mem_indices css out h
  have hflat1 : (out :: rest).flatten = out ++ rest.flatten := by simp
  have hflat2 : (css ++ rest).flatten = css.flatten ++ rest.flatten := by simp
  rw [_join_candidate_lists_eq, _join_candidate_lists_eq, hflat1, hflat2]
  set g1 := (out ++ rest.flatten).foldl addToGroups [] with hg1
  set g2 := (css.flatten ++ rest.flatten).foldl addToGroups [] with hg2
  have hnd1 : (srKeys g1).Nodup :=
    foldl_addToGroups_nodup _ [] (by simp [srKeys])
  have hnd2 : (srKeys g2).Nodup :=
    foldl_addToGroups_nodup _ [] (by simp [srKeys])
  have hmem12 : ∀ k, k ∈ srKeys g1 ↔ k ∈ srKeys g2 := by
    intro k
    rw [hg1, hg2, foldl_addToGroups_keys_mem, foldl_addToGroups_keys_mem]
    have hempty : ¬k ∈ srKeys ([] : List (Nat × List Candidate)) := by
      simp [srKeys]
    have hsplit1 : k ∈ (out ++ rest.flatten).map (·.index) ↔
        k ∈ out.map (·.index) ∨ k ∈ rest.flatten.map (·.index) := by
      rw [List.map_append]; exact List.mem_append
    have hsplit2 : k ∈ (css.flatten ++ rest.flatten).map (·.index) ↔
        k ∈ css.flatten.map (·.index) ∨ k ∈ rest.flatten.map (·.index) := by
      rw [List.map_append]; exact List.mem_append
    rw [hsplit1, hsplit2]
    have hom := houtmem k
    tauto
  apply joinGroups_congr
  apply map_join_congr
  · exact sortGroups_keys_eq g1 g2 hnd1 hnd2 hmem12
  · exact sortGroups_keys_nodup g1 hnd1
  · intro k v1 v2 hkmem h1 h2
    have h1' : findVal k g1 = some v1 := by
      rw [← findVal_congr_perm (sortGroups g1) g1 (sortGroups_perm g1)
        (sortGroups_keys_nodup g1 hnd1) k]
      exact h1
    have h2' : findVal k g2 = some v2 := by
      rw [← findVal_congr_perm (sortGroups g2) g2 (sortGroups_perm g2)
        (sortGroups_keys_nodup g2 hnd2) k]
      exact h2
    rw [hg1, groupsOf_findVal] at h1'
    rw [hg2, groupsOf_findVal] at h2'
    by_cases hf1 : (out ++ rest.flatten).filter (fun d => d.index == k) = []
    · rw [if_pos hf1] at h1'; exact absurd h1' (by simp)
    · rw [if_neg hf1] at h1'
      by_cases hf2 : (css.flatten ++ rest.flatten).filter (fun d => d.index == k) = []
      · rw [if_pos hf2] at h2'; exact absurd h2' (by simp)
      · rw [if_neg hf2] at h2'
        have hv1 : v1 = (out ++ rest.flatten).filter (fun d => d.index == k) :=
          (Option.some.inj h1').symm
        have hv2 : v2 = (css.flatten ++ rest.flatten).filter (fun d => d.index == k) :=
          (Option.some.inj h2').symm
        rw [hv1, hv2, List.filter_append, List.filter_append]
        by_cases hkF : k ∈ css.flatten.map (·.index)
        · obtain ⟨cd, hjF, hsingle⟩ := out_filter_key css out h k hkF
          rw [hsingle]
          cases hcons : css.flatten.filter (fun d => d.index == k) with
          | nil => exact absurd hcons (filter_ne_nil_of_mem_indices _ k hkF)
          | cons c0 g' =>
            rw [hcons] at hjF
            exact _join_candidates_compat c0 g'
              (rest.flatten.filter (fun d => d.index == k)) cd hjF
        · rw [out_filter_nil css out h k hkF,
              filter_nil_of_not_mem_indices css.flatten k hkF]

end glm

namespace glm

/-- Fold-compatibility of `_join_chunks`: joining an already-joined prefix
with one more chunk equals joining the whole sequence at once. -/
theorem _join_chunks_compat (ms : List GenerateContentResponse)
    (m r : GenerateContentResponse) (h : _join_chunks ms = some r) :
    _join_chunks [r, m] = _join_chunks (ms ++ [m]) := by
  unfold _join_chunks at h
  cases hcl : _join_candidate_lists (ms.map (·.candidates)) with
  | none => rw [hcl] at h; exact absurd h (by simp)
  | some cands =>
    rw [hcl] at h
    cases ms with
    | nil => simp [_join_prompt_feedbacks] at h
    | cons m0 ms' =>
      have hpf : _join_prompt_feedbacks ((m0 :: ms').map (·.prompt_feedback)) =
          some m0.prompt_feedback := rfl
      rw [hpf] at h
      have hr := Option.some.inj h
      have hrc : r.candidates = cands := by rw [← hr]
      have hrp : r.prompt_feedback = m0.prompt_feedback := by rw [← hr]
      have hcompat := _join_candidate_lists_compat ((m0 :: ms').map (·.candidates))
        [m.candidates] cands hcl
      unfold _join_chunks
      have hmap1 : ([r, m]).map (·.candidates) = r.candidates :: [m.candidates] :=
        rfl
      have hmap2 : ((m0 :: ms' ++ [m])).map (·.candidates) =
          ((m0 :: ms').map (·.candidates)) ++ [m.candidates] := by
        simp
      rw [hmap1, hmap2, hrc, hcompat]
      have hpf2 : _join_prompt_feedbacks (((m0 :: ms') ++ [m]).map (·.prompt_feedback)) =
          some m0.prompt_feedback := rfl
      have hpf1 : _join_prompt_feedbacks (([r, m]).map (·.prompt_feedback)) =
          some r.prompt_feedback := rfl
      rw [hpf1, hpf2, hrp]

/-- The incremental fold agrees with the one-shot join on every stream of at
least two chunks, whenever the fold completes. -/
theorem foldJoin_eq_join (m1 : GenerateContentResponse)
    (l : List GenerateContentResponse) :
    l ≠ [] → ∀ r, foldJoin m1 l = some r → _join_chunks (m1 :: l) = some r := by
  induction l using List.reverseRecOn with
  | nil => intro hl; exact absurd rfl hl
  | append_singleton l' m ih =>
    intro _ r h
    cases l' with
    | nil =>
      simpa [foldJoin] using h
    | cons m2 l'' =>
      have hfold : foldJoin m1 ((m2 :: l'') ++ [m]) =
          (foldJoin m1 (m2 :: l'')).bind (fun r' => _join_chunks [r', m]) := by
        simp [foldJoin, List.foldl_append]
      rw [hfold] at h
      cases hr' : foldJoin m1 (m2 :: l'') with
      | none => rw [hr'] at h; simp at h
      | some r' =>
        rw [hr'] at h
        simp only [Option.some_bind] at h
        have hJ := ih (by simp) r' hr'
        rw [_join_chunks_compat (m1 :: m2 :: l'') m r' hJ] at h
        exact h

end glm

/-- C1 counterexample: for a single-message stream the incremental fold yields
the message itself, while `_join_chunks` applied once re-normalizes it (here
merging the two adjacent non-empty text parts into one), so the two disagree
on a sequence of length one. -/
theorem c1_incremental_fold_counterexample :
    glm.foldJoin
        ⟨[⟨0, ⟨"model", [.text "a", .text "b"]⟩, 1, [], ⟨[]⟩⟩], ⟨0⟩⟩ [] ≠
      glm._join_chunks
        [⟨[⟨0, ⟨"model", [.text "a", .text "b"]⟩, 1, [], ⟨[]⟩⟩], ⟨0⟩⟩] := by
  decide

/-- C1 (amended): for every stream of at least two messages, whenever the
incremental left-fold (`result := m1`; then `result := _join_chunks([result,
m_i])` per pull) completes with a result, that result equals
`_join_chunks([m1, ..., mn])` applied once to the whole sequence in arrival
order.  (For a one-message stream the fold returns `m1` itself, which
`_join_chunks([m1])` need not equal.) -/
theorem c1_incremental_fold_amended (m1 m2 : glm.GenerateContentResponse)
    (rest : List glm.GenerateContentResponse) (r : glm.GenerateContentResponse)
    (h : glm.foldJoin m1 (m2 :: rest) = some r) :
    glm._join_chunks (m1 :: m2 :: rest) = some r :=
  glm.foldJoin_eq_join m1 (m2 :: rest) (by simp) r h

/-- Witness for the amended C1 on a concrete two-message stream. -/
theorem c1_incremental_fold_amended_witness :
    glm._join_chunks
        [⟨[⟨0, ⟨"model", [.text "Hello, "]⟩, 0, [], ⟨[]⟩⟩], ⟨0⟩⟩,
         ⟨[⟨0, ⟨"model", [.text "world!"]⟩, 1, [], ⟨[]⟩⟩], ⟨0⟩⟩] =
      some ⟨[⟨0, ⟨"model", [.text "Hello, world!"]⟩, 1, [], ⟨[]⟩⟩], ⟨0⟩⟩ :=
  c1_incremental_fold_amended
    ⟨[⟨0, ⟨"model", [.text "Hello, "]⟩, 0, [], ⟨[]⟩⟩], ⟨0⟩⟩
    ⟨[⟨0, ⟨"model", [.text "world!"]⟩, 1, [], ⟨[]⟩⟩], ⟨0⟩⟩
    [] _ (by decide)

/-- C4: a joined candidate's finish reason equals the finish reason of the
chronologically-last mention of its index across the flattened message
sequence, regardless of earlier finish reasons. -/
theorem c4_finish_reason_last_mention (cls : List (List glm.Candidate))
    (out : List glm.Candidate) (h : glm._join_candidate_lists cls = some out) :
    ∀ c ∈ out,
      ((cls.flatten.filter (fun d => d.index == c.index)).getLast?).map
        (·.finish_reason) = some c.finish_reason := by
  intro c hc
  have h' := h
  rw [glm._join_candidate_lists_eq] at h'
  obtain ⟨e, he, hj⟩ := glm.joinGroups_mem _ _ h' c hc
  obtain ⟨hfil, hne⟩ := glm.sorted_groups_entry cls.flatten e.1 e.2 he
  have hidx : c.index = e.1 := glm.entry_join_index cls.flatten e.1 e.2 he c hj
  have hfin := glm._join_candidates_finish e.2 c hj
  rw [hidx, ← hfil]
  exact hfin

/-- Witness for C4: index 0 mentioned with finish reason 5 then 7 merges to
finish reason 7, the last mention's. -/
theorem c4_finish_reason_last_mention_witness :
    ((([[⟨0, ⟨"model", [.text "x"]⟩, 5, [], ⟨[]⟩⟩],
        [⟨0, ⟨"model", [.text "y"]⟩, 7, [], ⟨[]⟩⟩]] :
          List (List glm.Candidate)).flatten.filter
       (fun d => d.index == 0)).getLast?).map (·.finish_reason) = some 7 := by
  have h := c4_finish_reason_last_mention
    [[⟨0, ⟨"model", [.text "x"]⟩, 5, [], ⟨[]⟩⟩],
     [⟨0, ⟨"model", [.text "y"]⟩, 7, [], ⟨[]⟩⟩]]
    [⟨0, ⟨"model", [.text "xy"]⟩, 7, [], ⟨[]⟩⟩]
    (by decide)
    ⟨0, ⟨"model", [.text "xy"]⟩, 7, [], ⟨[]⟩⟩ (by decide)
  exact h

namespace glm

theorem dropLast_append_getLastD {α : Type _} (l : List α) (d : α) (h : l ≠ []) :
    l.dropLast ++ [l.getLastD d] = l := by
  induction l generalizing d with
  | nil => exact absurd rfl h
  | cons a t ih =>
    cases t with
    | nil => rfl
    | cons b t' =>
      rw [dropLast_cons_ne a (b :: t') (by simp), List.getLastD_cons]
      rw [List.cons_append, ih a (by simp)]

theorem joinParts_append_split (xs ys : List Part) (hxs : xs ≠ []) :
    joinParts (xs ++ ys) =
      (joinParts xs).dropLast ++
        mergePartsAux ((joinParts xs).getLastD (.text "")) ys := by
  cases xs with
  | nil => exact absurd rfl hxs
  | cons p rest =>
    show mergePartsAux p (rest ++ ys) = _
    rw [mergePartsAux_append p rest ys]
    rw [getLastD_congr (mergePartsAux p rest) (mergePartsAux_ne_nil p rest)
      p (.text "")]
    rfl

/-- When the first merge step across an append boundary appends (empty-text
trailing part or empty-text/non-text leading part), the whole merge splits
into the two independently merged sides. -/
theorem joinParts_no_merge (xs : List Part) (q : Part) (qs : List Part)
    (hxs : xs ≠ [])
    (hb : ((joinParts xs).getLastD (.text "")).textStr = "" ∨ q.textStr = "") :
    joinParts (xs ++ q :: qs) = joinParts xs ++ joinParts (q :: qs) := by
  rw [joinParts_append_split xs (q :: qs) hxs,
      mergePartsAux_cons_app _ q qs hb]
  rw [show joinParts (q :: qs) = mergePartsAux q qs from rfl]
  rw [show (joinParts xs).dropLast ++
        ((joinParts xs).getLastD (.text "") :: mergePartsAux q qs) =
      ((joinParts xs).dropLast ++ [(joinParts xs).getLastD (.text "")]) ++
        mergePartsAux q qs from by simp]
  rw [dropLast_append_getLastD (joinParts xs) (.text "")
    (joinParts_ne_nil xs hxs)]

theorem joinParts_last_of_empty_trailing (ps : List Part) :
    (joinParts (ps ++ [.text ""])).getLastD (.text "") = .text "" := by
  cases ps with
  | nil => rfl
  | cons p rest =>
    show (mergePartsAux p (rest ++ [.text ""])).getLastD (.text "") = _
    rw [mergePartsAux_append p rest [.text ""]]
    rw [mergePartsAux_cons_app _ (.text "") [] (Or.inr rfl)]
    rw [getLastD_append_of_ne_nil _ _ _ (by simp)]
    rfl

theorem string_append_ne_empty_right (s t : String) (ht : ¬t = "") :
    ¬(s ++ t) = "" := by
  intro hc
  apply ht
  have hd := congrArg String.data hc
  rw [String.data_append] at hd
  have hd' : s.data ++ t.data = [] := by simpa using hd
  have ht' : t.data = [] := (List.append_eq_nil.mp hd').2
  exact String.ext (by simp [ht'])

theorem mergePartsAux_merge_mid (a : Part) (ps : List Part) (s t : String)
    (qs : List Part) (hs : ¬s = "") (ht : ¬t = "") :
    mergePartsAux a (ps ++ .text s :: .text t :: qs) =
      mergePartsAux a (ps ++ .text (s ++ t) :: qs) := by
  have hst : ¬(s ++ t) = "" := string_append_ne_empty_right s t ht
  induction ps generalizing a with
  | nil =>
    by_cases ha : a.textStr = ""
    · rw [show ([] : List Part) ++ .text s :: .text t :: qs =
          .text s :: .text t :: qs from rfl]
      rw [show ([] : List Part) ++ .text (s ++ t) :: qs =
          .text (s ++ t) :: qs from rfl]
      rw [mergePartsAux_cons_app a (.text s) (.text t :: qs) (Or.inl ha),
          mergePartsAux_cons_app a (.text (s ++ t)) qs (Or.inl ha),
          mergePartsAux_cons_merge (.text s) (.text t) qs hs ht]
      rfl
    · rw [show ([] : List Part) ++ .text s :: .text t :: qs =
          .text s :: .text t :: qs from rfl]
      rw [show ([] : List Part) ++ .text (s ++ t) :: qs =
          .text (s ++ t) :: qs from rfl]
      rw [mergePartsAux_cons_merge a (.text s) (.text t :: qs) ha hs,
          mergePartsAux_cons_merge a (.text (s ++ t)) qs ha hst]
      rw [show (Part.text s).textStr = s from rfl,
          show (Part.text (s ++ t)).textStr = s ++ t from rfl]
      rw [mergePartsAux_cons_merge (.text (a.textStr ++ s)) (.text t) qs
            (string_append_ne_empty_right a.textStr s hs) ht]
      rw [show (Part.text (a.textStr ++ s)).textStr = a.textStr ++ s from rfl,
          show (Part.text t).textStr = t from rfl, String.append_assoc]
  | cons p ps' ih =>
    by_cases ha : a.textStr = ""
    · rw [List.cons_append, List.cons_append,
          mergePartsAux_cons_app a p _ (Or.inl ha),
          mergePartsAux_cons_app a p _ (Or.inl ha), ih p]
    · by_cases hp : p.textStr = ""
      · rw [List.cons_append, List.cons_append,
            mergePartsAux_cons_app a p _ (Or.inr hp),
            mergePartsAux_cons_app a p _ (Or.inr hp), ih p]
      · rw [List.cons_append, List.cons_append,
            mergePartsAux_cons_merge a p _ ha hp,
            mergePartsAux_cons_merge a p _ ha hp, ih _]

theorem joinParts_merge_mid (ps : List Part) (s t : String) (qs : List Part)
    (hs : ¬s = "") (ht : ¬t = "") :
    joinParts (ps ++ .text s :: .text t :: qs) =
      joinParts (ps ++ .text (s ++ t) :: qs) := by
  cases ps with
  | nil =>
    show mergePartsAux (.text s) (.text t :: qs) = mergePartsAux (.text (s ++ t)) qs
    exact mergePartsAux_cons_merge (.text s) (.text t) qs hs ht
  | cons p ps' =>
    show mergePartsAux p (ps' ++ .text s :: .text t :: qs) =
      mergePartsAux p (ps' ++ .text (s ++ t) :: qs)
    exact mergePartsAux_merge_mid p ps' s t qs hs ht

theorem _join_contents_pair (c1 c2 : Content) (hrole : c2.role = c1.role)
    (hne : c1.parts ≠ []) :
    _join_contents [c1, c2] = some ⟨c1.role, joinParts (c1.parts ++ c2.parts)⟩ := by
  rw [_join_contents_eq]
  have hall : ([c1, c2].all (fun c => c.role == c1.role)) = true := by
    simp [hrole]
  rw [if_pos hall]
  have hfl : (([c1, c2]).map (·.parts)).flatten = c1.parts ++ c2.parts := by
    simp
  rw [hfl, if_neg (by
    intro hc
    exact hne (List.append_eq_nil.mp hc).1)]

theorem _join_contents_single (c : Content) (hne : c.parts ≠ []) :
    _join_contents [c] = some ⟨c.role, joinParts c.parts⟩ := by
  rw [_join_contents_eq]
  have hall : ([c].all (fun x => x.role == c.role)) = true := by simp
  rw [if_pos hall]
  have hfl : (([c]).map (·.parts)).flatten = c.parts := by simp
  rw [hfl, if_neg hne]

end glm

/-- C2 counterexample: a trailing *empty* text part and a leading text part
are NOT concatenated — `_join_contents` keeps them as two parts, while the
claim (quantified over all text parts) demands the single concatenated part. -/
theorem c2_text_concatenation_counterexample :
    glm._join_contents [⟨"model", [.text ""]⟩, ⟨"model", [.text "world!"]⟩] =
      some ⟨"model", [.text "", .text "world!"]⟩ ∧
    ([glm.Part.text "", glm.Part.text "world!"] ≠
      [glm.Part.text ("" ++ "world!")]) := by
  decide

/-- C2 (amended): for contents with equal role where `c1` ends in a text part
with *non-empty* text `s`: if `c2` begins with a text part with non-empty
text `t`, the join produces a single part `s ++ t` at the boundary (joining
is the same as joining a single content with the two parts pre-concatenated);
if instead `c2` begins with a non-text part, the two sides' parts remain
separate in order and are never concatenated. -/
theorem c2_text_concatenation_amended (c1 c2 : glm.Content) (ps : List glm.Part)
    (s : String) (hrole : c2.role = c1.role) (hp1 : c1.parts = ps ++ [.text s])
    (hs : s ≠ "") :
    (∀ (t : String) (qs : List glm.Part), c2.parts = .text t :: qs → t ≠ "" →
      glm._join_contents [c1, c2] =
        glm._join_contents [⟨c1.role, ps ++ .text (s ++ t) :: qs⟩]) ∧
    (∀ (d : Nat) (qs : List glm.Part), c2.parts = .inline_data d :: qs →
      glm._join_contents [c1, c2] =
        some ⟨c1.role, glm.joinParts c1.parts ++ glm.joinParts c2.parts⟩) := by
  have hne1 : c1.parts ≠ [] := by rw [hp1]; simp
  constructor
  · intro t qs hp2 ht
    rw [glm._join_contents_pair c1 c2 hrole hne1]
    rw [glm._join_contents_single ⟨c1.role, ps ++ .text (s ++ t) :: qs⟩ (by simp)]
    rw [hp1, hp2]
    rw [show (ps ++ [glm.Part.text s]) ++ (glm.Part.text t :: qs) =
        ps ++ glm.Part.text s :: glm.Part.text t :: qs from by simp]
    rw [glm.joinParts_merge_mid ps s t qs hs ht]
  · intro d qs hp2
    rw [glm._join_contents_pair c1 c2 hrole hne1, hp2]
    rw [glm.joinParts_no_merge c1.parts (.inline_data d) qs hne1 (Or.inr rfl)]

/-- Witness for the amended C2: "Hello, " and "world!" merge into the single
part "Hello, world!". -/
theorem c2_text_concatenation_amended_witness :
    glm._join_contents
        [⟨"model", [.text "Hello, "]⟩, ⟨"model", [.text "world!"]⟩] =
      glm._join_contents [⟨"model", [.text ("Hello, " ++ "world!")]⟩] :=
  (c2_text_concatenation_amended ⟨"model", [.text "Hello, "]⟩
      ⟨"model", [.text "world!"]⟩ [] "Hello, " rfl rfl (by decide)).1
    "world!" [] rfl (by decide)

/-- C10: a text part holding the empty string behaves as a non-text boundary
in `_join_contents`: a content ending in an empty-string text part followed
by a content beginning with a text part merges into the two independently
merged part lists side by side (two separate parts at the boundary, not
one), and the empty text part survives as the last part of the first side. -/
theorem c10_empty_text_boundary (c1 c2 : glm.Content) (ps qs : List glm.Part)
    (t : String) (hrole : c2.role = c1.role)
    (hp1 : c1.parts = ps ++ [.text ""]) (hp2 : c2.parts = .text t :: qs) :
    glm._join_contents [c1, c2] =
      some ⟨c1.role, glm.joinParts c1.parts ++ glm.joinParts c2.parts⟩ ∧
    (glm.joinParts c1.parts).getLastD (.text "") = .text "" := by
  have hne1 : c1.parts ≠ [] := by rw [hp1]; simp
  constructor
  · rw [glm._join_contents_pair c1 c2 hrole hne1, hp2]
    rw [glm.joinParts_no_merge c1.parts (.text t) qs hne1
      (Or.inl (by rw [hp1, glm.joinParts_last_of_empty_trailing ps]; rfl))]
  · rw [hp1]
    exact glm.joinParts_last_of_empty_trailing ps

/-- Witness for C10: text "" then text "world!" stay two separate parts. -/
theorem c10_empty_text_boundary_witness :
    glm._join_contents [⟨"model", [.text ""]⟩, ⟨"model", [.text "world!"]⟩] =
      some ⟨"model",
        glm.joinParts [.text ""] ++ glm.joinParts [.text "world!"]⟩ :=
  (c10_empty_text_boundary ⟨"model", [.text ""]⟩ ⟨"model", [.text "world!"]⟩
    [] [] "world!" rfl rfl rfl).1

namespace glm

/-- Errors latched on the accumulator (`self._error`): the
`BlockedPromptException(result)` raised for a blocked prompt, or an arbitrary
upstream exception (identified by a numeric tag). -/
inductive GError where
  | blocked (result : GenerateContentResponse)
  | upstream (e : Nat)
deriving Repr, DecidableEq

/-- State of a `GenerateContentResponse` accumulator: the `_done`, `_result`,
`_chunks` and `_error` attributes.  The live `_iterator` is modelled as the
list of items it will still yield (`stream`) followed by its terminal signal
(`streamFail = none` for `StopIteration`, `some e` for raising exception
`e`). -/
structure GCRState where
  done : Bool
  stream : List GenerateContentResponse
  streamFail : Option Nat
  result : GenerateContentResponse
  chunks : List GenerateContentResponse
  error : Option GError
deriving Repr, DecidableEq

/-- An upstream producer: the items it yields, then its terminal signal. -/
structure Producer where
  items : List GenerateContentResponse
  failure : Option Nat
deriving Repr, DecidableEq

/-- `BaseGenerateContentResponse.__init__`'s error latching:
`BlockedPromptException(result)` iff the result's prompt feedback carries a
nonzero block reason. -/
def initError (result : GenerateContentResponse) : Option GError :=
  if result.prompt_feedback.block_reason ≠ 0 then some (.blocked result)
  else none

/-- `GenerateContentResponse.from_response`: a done accumulator over one
complete message. -/
def from_response (response : GenerateContentResponse) : GCRState :=
  { done := true, stream := [], streamFail := none, result := response,
    chunks := [response], error := initError response }

/-- `GenerateContentResponse.from_iterator`: `next(iterator)` pulls exactly
one item to seed `chunks` and `result`; on an empty producer the
exhaustion/failure signal propagates out of the constructor (`.error`). -/
def from_iterator (p : Producer) : Except (Option Nat) GCRState :=
  match p.items with
  | [] => .error p.failure
  | response :: rest =>
    .ok { done := false, stream := rest, streamFail := p.failure,
          result := response, chunks := [response],
          error := initError response }

/-- Outcome of running one iteration pass of `__iter__` to completion:
normal return, a raised latched error, or an unhandled exception escaping
the generator (index error on an empty buffer, or a `_join_chunks` failure). -/
inductive IterOutcome where
  | ok
  | raised (e : GError)
  | crashed
deriving Repr, DecidableEq

/-- The `for n in itertools.count()` loop of `__iter__`, run to completion:
check the latched error; at the buffer edge look one item ahead (marking done
on exhaustion, latching the error and marking done on failure, or appending
the pulled chunk and folding it into `result`); then yield
`from_response(chunks[n])`.  `fuel` only forces termination; `iterLoop` below
instantiates it with a proven-sufficient bound. -/
def iterSteps : Nat → GCRState → Nat → List GCRState × IterOutcome × GCRState
  | 0, st, _ => ([], .crashed, st)
  | fuel + 1, st, n =>
    match st.error with
    | some e => ([], .raised e, st)
    | none =>
      if st.chunks.length ≤ n + 1 then
        if st.done then ([], .ok, st)
        else
          match st.stream with
          | [] =>
            match st.streamFail with
            | none =>
              let st' := { st with done := true }
              match st'.chunks[n]? with
              | none => ([], .crashed, st')
              | some c =>
                let r := iterSteps fuel st' (n + 1)
                (from_response c :: r.1, r.2.1, r.2.2)
            | some e =>
              let st' := { st with done := true, error := some (.upstream e) }
              match st'.chunks[n]? with
              | none => ([], .crashed, st')
              | some c =>
                let r := iterSteps fuel st' (n + 1)
                (from_response c :: r.1, r.2.1, r.2.2)
          | item :: rest =>
            match _join_chunks [st.result, item] with
            | none =>
              ([], .crashed,
               { st with stream := rest, chunks := st.chunks ++ [item] })
            | some res =>
              let st' :=
                { st with
                  stream := rest
                  chunks := st.chunks ++ [item]
                  result := res }
              match st'.chunks[n]? with
              | none => ([], .crashed, st')
              | some c =>
                let r := iterSteps fuel st' (n + 1)
                (from_response c :: r.1, r.2.1, r.2.2)
      else
        match st.chunks[n]? with
        | none => ([], .crashed, st)
        | some c =>
          let r := iterSteps fuel st (n + 1)
          (from_response c :: r.1, r.2.1, r.2.2)

/-- Sufficient fuel for `iterSteps`: every loop iteration either advances `n`
towards the buffered end or consumes one upstream item. -/
def iterBound (st : GCRState) (n : Nat) : Nat :=
  st.stream.length + st.chunks.length + 1 - n

/-- The iteration loop with its sufficient fuel. -/
def iterLoop (st : GCRState) (n : Nat) :
    List GCRState × IterOutcome × GCRState :=
  iterSteps (iterBound st n) st n

/-- `__iter__`, driven to completion: the done short-circuit replays the
buffered chunks; otherwise the buffer is seeded if empty (an uncaught
exception if that very pull fails) and the loop runs from `n = 0`. -/
def iterFull (st : GCRState) : List GCRState × IterOutcome × GCRState :=
  if st.done then (st.chunks.map from_response, .ok, st)
  else
    match st.chunks with
    | [] =>
      match st.stream with
      | [] => ([], .crashed, st)
      | item :: rest => iterLoop { st with stream := rest, chunks := [item] } 0
    | _ :: _ => iterLoop st 0

/-- `resolve`: return immediately when done, else drain `__iter__`. -/
def resolve (st : GCRState) : IterOutcome × GCRState :=
  if st.done then (.ok, st)
  else ((iterFull st).2.1, (iterFull st).2.2)

/-- Error shapes of the result accessors: `IncompleteIterationError`, and the
two `ValueError` shapes of the `parts` property. -/
inductive AccessError where
  | incomplete
  | noCandidates
  | multipleCandidates
deriving Repr, DecidableEq

/-- The `candidates` property: requires the stream to be done. -/
def candidatesAccessor (st : GCRState) : Except AccessError (List Candidate) :=
  if !st.done then .error .incomplete else .ok st.result.candidates

/-- The `parts` property: `candidates`, then fail on zero or on more than one
candidate, else return the sole candidate's content parts. -/
def partsAccessor (st : GCRState) : Except AccessError (List Part) :=
  match candidatesAccessor st with
  | .error e => .error e
  | .ok candidates =>
    match candidates with
    | [] => .error .noCandidates
    | [candidate] => .ok candidate.content.parts
    | _ :: _ :: _ => .error .multipleCandidates

/-- The `prompt_feedback` property: always available, no state check. -/
def promptFeedbackAccessor (st : GCRState) : PromptFeedback :=
  st.result.prompt_feedback

end glm

namespace glm

theorem drop_eq_cons_of_getElem? {α : Type _} (l : List α) (n : Nat) (c : α)
    (h : l[n]? = some c) : l.drop n = c :: l.drop (n + 1) := by
  induction l generalizing n with
  | nil => simp at h
  | cons a t ih =>
    cases n with
    | zero =>
      have : a = c := Option.some.inj (by simpa using h)
      subst this
      rfl
    | succ m =>
      rw [show (a :: t).drop (m + 1) = t.drop m from rfl,
          show (a :: t).drop (m + 1 + 1) = t.drop (m + 1) from rfl]
      exact ih m (by simpa using h)

theorem getElem?_append_left' {α : Type _} (l1 l2 : List α) (n : Nat)
    (h : n < l1.length) : (l1 ++ l2)[n]? = l1[n]? := by
  induction l1 generalizing n with
  | nil => simp at h
  | cons a t ih =>
    cases n with
    | zero => simp
    | succ m =>
      rw [List.cons_append, List.getElem?_cons_succ, List.getElem?_cons_succ]
      exact ih m (by simpa using h)

theorem lt_of_getElem?_some {α : Type _} (l : List α) (n : Nat) (c : α)
    (h : l[n]? = some c) : n < l.length := by
  induction l generalizing n with
  | nil => simp at h
  | cons a t ih =>
    cases n with
    | zero => simp
    | succ m => exact Nat.succ_lt_succ (ih m (by simpa using h))

theorem iterSteps_err (fuel : Nat) (st : GCRState) (n : Nat) (e : GError)
    (h : st.error = some e) :
    iterSteps (fuel + 1) st n = ([], .raised e, st) := by
  simp [iterSteps, h]

theorem iterSteps_ret (fuel : Nat) (st : GCRState) (n : Nat)
    (h0 : st.error = none) (h1 : st.chunks.length ≤ n + 1)
    (h2 : st.done = true) :
    iterSteps (fuel + 1) st n = ([], .ok, st) := by
  simp [iterSteps, h0, h1, h2]

theorem iterSteps_stop (fuel : Nat) (st : GCRState) (n : Nat)
    (c : GenerateContentResponse) (h0 : st.error = none)
    (h1 : st.chunks.length ≤ n + 1) (h2 : st.done = false)
    (h3 : st.stream = []) (h4 : st.streamFail = none)
    (h5 : st.chunks[n]? = some c) :
    iterSteps (fuel + 1) st n =
      (from_response c :: (iterSteps fuel { st with done := true } (n + 1)).1,
       (iterSteps fuel { st with done := true } (n + 1)).2.1,
       (iterSteps fuel { st with done := true } (n + 1)).2.2) := by
  simp [iterSteps, h0, h1, h2, h3, h4, h5]

theorem iterSteps_stop_crash (fuel : Nat) (st : GCRState) (n : Nat)
    (h0 : st.error = none) (h1 : st.chunks.length ≤ n + 1)
    (h2 : st.done = false) (h3 : st.stream = []) (h4 : st.streamFail = none)
    (h5 : st.chunks[n]? = none) :
    iterSteps (fuel + 1) st n = ([], .crashed, { st with done := true }) := by
  simp [iterSteps, h0, h1, h2, h3, h4, h5]

theorem iterSteps_fail (fuel : Nat) (st : GCRState) (n : Nat) (e : Nat)
    (c : GenerateContentResponse) (h0 : st.error = none)
    (h1 : st.chunks.length ≤ n + 1) (h2 : st.done = false)
    (h3 : st.stream = []) (h4 : st.streamFail = some e)
    (h5 : st.chunks[n]? = some c) :
    iterSteps (fuel + 1) st n =
      (from_response c ::
        (iterSteps fuel
          { st with done := true, error := some (.upstream e) } (n + 1)).1,
       (iterSteps fuel
          { st with done := true, error := some (.upstream e) } (n + 1)).2.1,
       (iterSteps fuel
          { st with done := true, error := some (.upstream e) } (n + 1)).2.2) := by
  simp [iterSteps, h0, h1, h2, h3, h4, h5]

theorem iterSteps_fail_crash (fuel : Nat) (st : GCRState) (n : Nat) (e : Nat)
    (h0 : st.error = none) (h1 : st.chunks.length ≤ n + 1)
    (h2 : st.done = false) (h3 : st.stream = []) (h4 : st.streamFail = some e)
    (h5 : st.chunks[n]? = none) :
    iterSteps (fuel + 1) st n =
      ([], .crashed, { st with done := true, error := some (.upstream e) }) := by
  simp [iterSteps, h0, h1, h2, h3, h4, h5]

theorem iterSteps_pull (fuel : Nat) (st : GCRState) (n : Nat)
    (item : GenerateContentResponse) (rest : List GenerateContentResponse)
    (res c : GenerateContentResponse) (h0 : st.error = none)
    (h1 : st.chunks.length ≤ n + 1) (h2 : st.done = false)
    (h3 : st.stream = item :: rest)
    (h4 : _join_chunks [st.result, item] = some res)
    (h5 : (st.chunks ++ [item])[n]? = some c) :
    iterSteps (fuel + 1) st n =
      (from_response c ::
        (iterSteps fuel
          { st with stream := rest, chunks := st.chunks ++ [item],
                    result := res } (n + 1)).1,
       (iterSteps fuel
          { st with stream := rest, chunks := st.chunks ++ [item],
                    result := res } (n + 1)).2.1,
       (iterSteps fuel
          { st with stream := rest, chunks := st.chunks ++ [item],
                    result := res } (n + 1)).2.2) := by
  simp [iterSteps, h0, h1, h2, h3, h4, h5]

theorem iterSteps_pull_crashJoin (fuel : Nat) (st : GCRState) (n : Nat)
    (item : GenerateContentResponse) (rest : List GenerateContentResponse)
    (h0 : st.error = none) (h1 : st.chunks.length ≤ n + 1)
    (h2 : st.done = false) (h3 : st.stream = item :: rest)
    (h4 : _join_chunks [st.result, item] = none) :
    iterSteps (fuel + 1) st n =
      ([], .crashed,
       { st with stream := rest, chunks := st.chunks ++ [item] }) := by
  simp [iterSteps, h0, h1, h2, h3, h4]

theorem iterSteps_pull_crashGet (fuel : Nat) (st : GCRState) (n : Nat)
    (item : GenerateContentResponse) (rest : List GenerateContentResponse)
    (res : GenerateContentResponse) (h0 : st.error = none)
    (h1 : st.chunks.length ≤ n + 1) (h2 : st.done = false)
    (h3 : st.stream = item :: rest)
    (h4 : _join_chunks [st.result, item] = some res)
    (h5 : (st.chunks ++ [item])[n]? = none) :
    iterSteps (fuel + 1) st n =
      ([], .crashed,
       { st with stream := rest, chunks := st.chunks ++ [item],
                 result := res }) := by
  simp [iterSteps, h0, h1, h2, h3, h4, h5]

theorem iterSteps_replay (fuel : Nat) (st : GCRState) (n : Nat)
    (c : GenerateContentResponse) (h0 : st.error = none)
    (h1 : ¬st.chunks.length ≤ n + 1) (h5 : st.chunks[n]? = some c) :
    iterSteps (fuel + 1) st n =
      (from_response c :: (iterSteps fuel st (n + 1)).1,
       (iterSteps fuel st (n + 1)).2.1,
       (iterSteps fuel st (n + 1)).2.2) := by
  simp [iterSteps, h0, h1, h5]

end glm

namespace glm

/-- Combined behavioural facts about one completed pass of the iteration
loop from cursor `n`: buffered-plus-pending items are preserved, the buffer
only grows, a normal return means the stream is done and (from a live state)
fully pulled, the yields are exactly the final buffer from position `n`
wrapped as done single-message snapshots, and a raised error on a failing
producer is that producer's failure, latched with `done` set. -/
def IterOK (st : GCRState) (n : Nat)
    (r : List GCRState × IterOutcome × GCRState) : Prop :=
  r.2.2.chunks ++ r.2.2.stream = st.chunks ++ st.stream ∧
  r.2.2.streamFail = st.streamFail ∧
  (∃ tail, r.2.2.chunks = st.chunks ++ tail) ∧
  (r.2.1 = .ok → r.2.2.done = true) ∧
  (r.2.1 = .ok → st.done = false → r.2.2.stream = []) ∧
  (r.2.1 = .ok → (st.done = true → st.chunks.length ≤ n) →
      r.1 = (r.2.2.chunks.drop n).map from_response) ∧
  (∀ e err, st.error = none → st.streamFail = some e → r.2.1 = .raised err →
      err = .upstream e ∧ r.2.2.done = true ∧
      r.2.2.error = some (.upstream e) ∧ r.2.2.stream = [])

theorem IterOK_crashed (st : GCRState) (n : Nat) (fin : GCRState)
    (hc : fin.chunks ++ fin.stream = st.chunks ++ st.stream)
    (hsf : fin.streamFail = st.streamFail)
    (hpre : ∃ tail, fin.chunks = st.chunks ++ tail) :
    IterOK st n ([], .crashed, fin) := by
  refine ⟨hc, hsf, hpre, ?_, ?_, ?_, ?_⟩
  · intro h; exact absurd h (by simp)
  · intro h; exact absurd h (by simp)
  · intro h; exact absurd h (by simp)
  · intro e err _ _ h; exact absurd h (by simp)

theorem iterSteps_spec (fuel : Nat) : ∀ (st : GCRState) (n : Nat),
    iterBound st n ≤ fuel → IterOK st n (iterSteps fuel st n) := by
  induction fuel with
  | zero =>
    intro st n _
    exact IterOK_crashed st n st rfl rfl ⟨[], by simp⟩
  | succ fuel ih =>
    intro st n hfuel
    cases herr : st.error with
    | some e =>
      rw [iterSteps_err fuel st n e herr]
      refine ⟨rfl, rfl, ⟨[], by simp⟩, ?_, ?_, ?_, ?_⟩
      · intro h; exact absurd h (by simp)
      · intro h; exact absurd h (by simp)
      · intro h; exact absurd h (by simp)
      · intro e' err h0 _ _
        rw [herr] at h0
        exact absurd h0 (by simp)
    | none =>
      by_cases hlen : st.chunks.length ≤ n + 1
      · cases hdone : st.done with
        | true =>
          rw [iterSteps_ret fuel st n herr hlen hdone]
          refine ⟨rfl, rfl, ⟨[], by simp⟩, fun _ => hdone, ?_, ?_, ?_⟩
          · intro _ hfalse
            rw [hdone] at hfalse
            exact absurd hfalse (by simp)
          · intro _ himp
            have hle : st.chunks.length ≤ n := himp hdone
            rw [List.drop_eq_nil_of_le hle]
            rfl
          · intro e err _ _ h
            exact absurd h (by simp)
        | false =>
          cases hstream : st.stream with
          | nil =>
            cases hfail : st.streamFail with
            | none =>
              cases hget : st.chunks[n]? with
              | none =>
                rw [iterSteps_stop_crash fuel st n herr hlen hdone hstream
                  hfail hget]
                exact IterOK_crashed st n _ (by simp) (by simp) ⟨[], by simp⟩
              | some c =>
                have hlt : n < st.chunks.length := lt_of_getElem?_some _ n c hget
                rw [iterSteps_stop fuel st n c herr hlen hdone hstream hfail
                  hget]
                have hb : iterBound ({ st with done := true }) (n + 1) ≤ fuel := by
                  unfold iterBound at hfuel ⊢
                  simp only [hstream] at hfuel ⊢
                  simp at hfuel ⊢
                  omega
                obtain ⟨i1, i2, ⟨tail, i3⟩, i4, i5, i6, i7⟩ :=
                  ih { st with done := true } (n + 1) hb
                refine ⟨by simpa using i1, by simpa using i2,
                  ⟨tail, by simpa using i3⟩, i4, ?_, ?_, ?_⟩
                · intro hok _
                  have hinv := i1
                  rw [i3] at hinv
                  have hlen2 := congrArg List.length hinv
                  simp [hstream] at hlen2
                  simp only [hstream]
                  exact hlen2.2
                · intro hok _
                  have hy := i6 hok (fun _ => by simpa using hlen)
                  have hcg : (iterSteps fuel { st with done := true }
                      (n + 1)).2.2.chunks[n]? = some c := by
                    rw [i3]
                    rw [getElem?_append_left' _ _ n (by simpa using hlt)]
                    simpa using hget
                  rw [drop_eq_cons_of_getElem? _ n c hcg]
                  rw [List.map_cons]
                  rw [hy]
                · intro e err h0 h4 hraised
                  rw [hfail] at h4
                  exact absurd h4 (by simp)
            | some e =>
              cases hget : st.chunks[n]? with
              | none =>
                rw [iterSteps_fail_crash fuel st n e herr hlen hdone hstream
                  hfail hget]
                exact IterOK_crashed st n _ (by simp) (by simp) ⟨[], by simp⟩
              | some c =>
                rw [iterSteps_fail fuel st n e c herr hlen hdone hstream hfail
                  hget]
                cases fuel with
                | zero =>
                  refine ⟨by simp [iterSteps, hstream], by simp [iterSteps],
                    ⟨[], by simp [iterSteps]⟩, ?_, ?_, ?_, ?_⟩
                  · intro h; exact absurd h (by simp [iterSteps])
                  · intro h; exact absurd h (by simp [iterSteps])
                  · intro h; exact absurd h (by simp [iterSteps])
                  · intro e' err _ _ h
                    exact absurd h (by simp [iterSteps])
                | succ f =>
                  rw [iterSteps_err f _ (n + 1) (.upstream e) rfl]
                  refine ⟨by simp [hstream], by simp, ⟨[], by simp⟩,
                    ?_, ?_, ?_, ?_⟩
                  · intro h; exact absurd h (by simp)
                  · intro h; exact absurd h (by simp)
                  · intro h; exact absurd h (by simp)
                  · intro e' err _ h4 hraised
                    rw [hfail] at h4
                    have he' : e = e' := Option.some.inj h4
                    subst he'
                    have herr' : err = GError.upstream e :=
                      (IterOutcome.raised.inj hraised).symm
                    exact ⟨herr', rfl, rfl, by simp [hstream]⟩
          | cons item rest =>
            cases hjoin : _join_chunks [st.result, item] with
            | none =>
              rw [iterSteps_pull_crashJoin fuel st n item rest herr hlen hdone
                hstream hjoin]
              refine IterOK_crashed st n _ ?_ (by simp) ⟨[item], by simp⟩
              simp [hstream]
            | some res =>
              cases hget : (st.chunks ++ [item])[n]? with
              | none =>
                rw [iterSteps_pull_crashGet fuel st n item rest res herr hlen
                  hdone hstream hjoin hget]
                refine IterOK_crashed st n _ ?_ (by simp) ⟨[item], by simp⟩
                simp [hstream]
              | some c =>
                have hlt : n < (st.chunks ++ [item]).length :=
                  lt_of_getElem?_some _ n c hget
                rw [iterSteps_pull fuel st n item rest res c herr hlen hdone
                  hstream hjoin hget]
                have hb : iterBound
                    ({ st with
                        stream := rest
                        chunks := st.chunks ++ [item]
                        result := res }) (n + 1) ≤ fuel := by
                  unfold iterBound at hfuel ⊢
                  simp [hstream] at hfuel ⊢
                  omega
                obtain ⟨i1, i2, ⟨tail, i3⟩, i4, i5, i6, i7⟩ :=
                  ih { st with
                        stream := rest
                        chunks := st.chunks ++ [item]
                        result := res } (n + 1) hb
                refine ⟨?_, by simpa using i2, ?_, i4, ?_, ?_, ?_⟩
                · rw [i1]
                  simp [hstream]
                · exact ⟨[item] ++ tail, by rw [i3]; simp⟩
                · intro hok _
                  exact i5 hok (by simp [hdone])
                · intro hok _
                  have hy := i6 hok (by simp [hdone])
                  have hcg : (iterSteps fuel
                      { st with
                          stream := rest
                          chunks := st.chunks ++ [item]
                          result := res } (n + 1)).2.2.chunks[n]? = some c := by
                    rw [i3]
                    rw [getElem?_append_left' _ _ n (by simpa using hlt)]
                    simpa using hget
                  rw [drop_eq_cons_of_getElem? _ n c hcg, List.map_cons, hy]
                · intro e err h0 h4 hraised
                  exact i7 e err (by simp [herr]) (by simpa using h4) hraised
      · have hlt : n < st.chunks.length := by omega
        cases hget : st.chunks[n]? with
        | none =>
          rw [List.getElem?_eq_getElem hlt] at hget
          exact absurd hget (by simp)
        | some c =>
          rw [iterSteps_replay fuel st n c herr hlen hget]
          have hb : iterBound st (n + 1) ≤ fuel := by
            unfold iterBound at hfuel ⊢
            omega
          obtain ⟨i1, i2, ⟨tail, i3⟩, i4, i5, i6, i7⟩ := ih st (n + 1) hb
          refine ⟨i1, i2, ⟨tail, i3⟩, i4, i5, ?_, i7⟩
          intro hok himp
          have hy := i6 hok (fun hd => Nat.le_succ_of_le (himp hd))
          have hcg : (iterSteps fuel st (n + 1)).2.2.chunks[n]? = some c := by
            rw [i3, getElem?_append_left' _ _ n hlt]
            exact hget
          rw [drop_eq_cons_of_getElem? _ n c hcg, List.map_cons, hy]

end glm

namespace glm

/-- The loop with its proven-sufficient fuel satisfies the behavioural spec. -/
theorem iterLoop_spec (st : GCRState) (n : Nat) : IterOK st n (iterLoop st n) :=
  iterSteps_spec (iterBound st n) st n (le_refl _)

/-- On a done accumulator `__iter__` replays the buffered chunks as done
snapshots and returns, leaving the state untouched. -/
theorem iterFull_done (st : GCRState) (hdone : st.done = true) :
    iterFull st = (st.chunks.map from_response, .ok, st) := by
  rw [iterFull, if_pos hdone]

/-- On a live accumulator with a non-empty buffer `__iter__` runs the counting
loop from `n = 0`. -/
theorem iterFull_eq_loop (st : GCRState) (hdone : st.done = false)
    (hne : st.chunks ≠ []) : iterFull st = iterLoop st 0 := by
  rw [iterFull, if_neg (by simp [hdone])]
  cases hc : st.chunks with
  | nil => exact absurd hc hne
  | cons c cs => rfl

/-- On a live accumulator with an empty buffer `__iter__` first seeds the
buffer with one pulled item, then runs the counting loop. -/
theorem iterFull_eq_seed (st : GCRState) (item : GenerateContentResponse)
    (rest : List GenerateContentResponse) (hdone : st.done = false)
    (hchunks : st.chunks = []) (hstream : st.stream = item :: rest) :
    iterFull st = iterLoop { st with stream := rest, chunks := [item] } 0 := by
  rw [iterFull, if_neg (by simp [hdone]), hchunks, hstream]

/-- `resolve` on a done accumulator returns immediately. -/
theorem resolve_done (st : GCRState) (hdone : st.done = true) :
    resolve st = (.ok, st) := by
  rw [resolve, if_pos hdone]

/-- C5: an accumulator seeded by `from_iterator` from a non-failing producer
and drained to a normal return has yielded one done single-message snapshot
per buffered chunk, the buffer holds exactly the producer's items in arrival
order, and the accumulator is now done with the upstream iterator exhausted,
so a second drain replays the identical snapshot sequence from the buffer
without touching the upstream iterator (the state is returned unchanged). -/
theorem c5_replay_identical (p : Producer) (st₀ st1 : GCRState)
    (ys : List GCRState)
    (hof : from_iterator p = .ok st₀)
    (hfail : p.failure = none)
    (hrun : iterFull st₀ = (ys, .ok, st1)) :
    ys = st1.chunks.map from_response ∧
    st1.chunks = p.items ∧
    st1.done = true ∧
    st1.stream = [] ∧
    iterFull st1 = (ys, .ok, st1) ∧
    ∀ s ∈ ys, s.done = true ∧ s.chunks = [s.result] ∧ s.stream = [] := by
  cases hp : p.items with
  | nil =>
    rw [from_iterator, hp] at hof
    exact absurd hof (by simp)
  | cons m rest =>
    simp [from_iterator, hp] at hof
    obtain rfl := hof
    rw [iterFull_eq_loop _ rfl (by simp)] at hrun
    have hspec := iterLoop_spec
      { done := false
        stream := rest
        streamFail := p.failure
        result := m
        chunks := [m]
        error := initError m } 0
    rw [hrun] at hspec
    obtain ⟨i1, i2, ⟨tail, i3⟩, i4, i5, i6, i7⟩ := hspec
    have hstream1 : st1.stream = [] := i5 rfl rfl
    have hdone1 : st1.done = true := i4 rfl
    have hchunks1 : st1.chunks = m :: rest := by
      have e1 : st1.chunks ++ st1.stream = m :: rest := by simpa using i1
      rw [hstream1, List.append_nil] at e1
      exact e1
    have hys : ys = st1.chunks.map from_response := by
      have e2 := i6 rfl (by simp)
      simpa using e2
    refine ⟨hys, hchunks1, hdone1, hstream1, ?_, ?_⟩
    · rw [iterFull_done st1 hdone1, hys]
    · rw [hys]
      intro s hs
      obtain ⟨c, _, rfl⟩ := List.mem_map.mp hs
      exact ⟨rfl, rfl, rfl⟩

/-- C5 witness: a two-item producer of empty-candidate messages is drained
twice with identical yields. -/
theorem c5_replay_identical_witness :
    ([from_response ⟨[], ⟨0⟩⟩, from_response ⟨[], ⟨0⟩⟩] : List GCRState) =
      (⟨true, [], none, ⟨[], ⟨0⟩⟩, [⟨[], ⟨0⟩⟩, ⟨[], ⟨0⟩⟩], none⟩ :
        GCRState).chunks.map from_response ∧
    (⟨true, [], none, ⟨[], ⟨0⟩⟩, [⟨[], ⟨0⟩⟩, ⟨[], ⟨0⟩⟩], none⟩ :
      GCRState).chunks = ([⟨[], ⟨0⟩⟩, ⟨[], ⟨0⟩⟩] :
        List GenerateContentResponse) ∧
    (⟨true, [], none, ⟨[], ⟨0⟩⟩, [⟨[], ⟨0⟩⟩, ⟨[], ⟨0⟩⟩], none⟩ :
      GCRState).done = true ∧
    (⟨true, [], none, ⟨[], ⟨0⟩⟩, [⟨[], ⟨0⟩⟩, ⟨[], ⟨0⟩⟩], none⟩ :
      GCRState).stream = [] ∧
    iterFull ⟨true, [], none, ⟨[], ⟨0⟩⟩, [⟨[], ⟨0⟩⟩, ⟨[], ⟨0⟩⟩], none⟩ =
      ([from_response ⟨[], ⟨0⟩⟩, from_response ⟨[], ⟨0⟩⟩],
        .ok, ⟨true, [], none, ⟨[], ⟨0⟩⟩, [⟨[], ⟨0⟩⟩, ⟨[], ⟨0⟩⟩], none⟩) ∧
    ∀ s ∈ ([from_response ⟨[], ⟨0⟩⟩, from_response ⟨[], ⟨0⟩⟩] :
        List GCRState),
      s.done = true ∧ s.chunks = [s.result] ∧ s.stream = [] :=
  c5_replay_identical ⟨[⟨[], ⟨0⟩⟩, ⟨[], ⟨0⟩⟩], none⟩
    ⟨false, [⟨[], ⟨0⟩⟩], none, ⟨[], ⟨0⟩⟩, [⟨[], ⟨0⟩⟩], none⟩
    ⟨true, [], none, ⟨[], ⟨0⟩⟩, [⟨[], ⟨0⟩⟩, ⟨[], ⟨0⟩⟩], none⟩
    [from_response ⟨[], ⟨0⟩⟩, from_response ⟨[], ⟨0⟩⟩]
    rfl rfl (by decide)

end glm

namespace glm

/-- C6: when the seed message of a producer carries a nonzero
`prompt_feedback.block_reason`, the constructor latches
`BlockedPromptException(result)`; iterating raises it before any snapshot is
yielded and leaves the state unchanged (so every further attempt raises the
same exception again), while the `prompt_feedback` property still returns the
blocking feedback without any state check. -/
theorem c6_blocked_prompt (p : Producer) (m : GenerateContentResponse)
    (rest : List GenerateContentResponse)
    (hp : p.items = m :: rest)
    (hblock : m.prompt_feedback.block_reason ≠ 0) :
    ∃ st₀, from_iterator p = .ok st₀ ∧
      st₀.error = some (.blocked m) ∧
      iterFull st₀ = ([], .raised (.blocked m), st₀) ∧
      promptFeedbackAccessor st₀ = m.prompt_feedback := by
  have herr : initError m = some (.blocked m) := by
    rw [initError, if_pos hblock]
  refine ⟨{ done := false
            stream := rest
            streamFail := p.failure
            result := m
            chunks := [m]
            error := initError m }, by simp [from_iterator, hp], herr, ?_, rfl⟩
  rw [iterFull_eq_loop _ rfl (by simp)]
  have hb : iterBound
      ({ done := false
         stream := rest
         streamFail := p.failure
         result := m
         chunks := [m]
         error := initError m } : GCRState) 0 = (rest.length + 1) + 1 := by
    simp [iterBound]
  rw [iterLoop, hb, iterSteps_err (rest.length + 1) _ 0 (.blocked m) herr]

/-- C6 witness: a one-item producer whose message has block reason 1. -/
theorem c6_blocked_prompt_witness :
    ∃ st₀,
      from_iterator ⟨[⟨[], ⟨1⟩⟩], none⟩ = .ok st₀ ∧
      st₀.error = some (.blocked ⟨[], ⟨1⟩⟩) ∧
      iterFull st₀ = ([], .raised (.blocked ⟨[], ⟨1⟩⟩), st₀) ∧
      promptFeedbackAccessor st₀ =
        (⟨[], ⟨1⟩⟩ : GenerateContentResponse).prompt_feedback :=
  c6_blocked_prompt ⟨[⟨[], ⟨1⟩⟩], none⟩ ⟨[], ⟨1⟩⟩ [] rfl (by decide)

/-- C7 counterexample: after an upstream failure is raised and latched on a
live accumulator, a second `__iter__` takes the done short-circuit and
completes normally, and `resolve` returns immediately — the latched error is
NOT re-raised on subsequent iteration, refuting the claim's re-raise clause. -/
theorem c7_reraise_counterexample :
    (iterFull ⟨false, [], some 7, ⟨[], ⟨0⟩⟩, [⟨[], ⟨0⟩⟩], none⟩).2.1 =
      .raised (.upstream 7) ∧
    (iterFull
        (iterFull ⟨false, [], some 7, ⟨[], ⟨0⟩⟩, [⟨[], ⟨0⟩⟩], none⟩).2.2).2.1 =
      .ok ∧
    (resolve
        (iterFull ⟨false, [], some 7, ⟨[], ⟨0⟩⟩, [⟨[], ⟨0⟩⟩], none⟩).2.2).1 =
      .ok ∧
    (iterFull ⟨false, [], some 7, ⟨[], ⟨0⟩⟩, [⟨[], ⟨0⟩⟩], none⟩).2.2.error =
      some (.upstream 7) := by decide

/-- C7 (amended): when the pending upstream iterator fails with exception `e`
on a live accumulator, the pass raises exactly `.upstream e`, the state
transitions to done with the error latched and the stream consumed, and all
chunks buffered before the failure remain readable; but a subsequent
`__iter__` replays those buffered chunks and returns normally, and `resolve`
returns immediately — the latched error is not raised again. -/
theorem c7_upstream_failure_amended (st st1 : GCRState) (e : Nat)
    (ys : List GCRState) (err : GError)
    (herr : st.error = none) (hdone : st.done = false)
    (hfail : st.streamFail = some e)
    (hrun : iterFull st = (ys, .raised err, st1)) :
    err = .upstream e ∧ st1.done = true ∧
    st1.error = some (.upstream e) ∧ st1.stream = [] ∧
    st1.chunks = st.chunks ++ st.stream ∧
    iterFull st1 = (st1.chunks.map from_response, .ok, st1) ∧
    resolve st1 = (.ok, st1) := by
  cases hc : st.chunks with
  | nil =>
    cases hs : st.stream with
    | nil =>
      rw [iterFull, if_neg (by simp [hdone]), hc, hs] at hrun
      have hcr := congrArg (fun r => r.2.1) hrun
      simp at hcr
    | cons item rest =>
      rw [iterFull_eq_seed st item rest hdone hc hs] at hrun
      have hspec := iterLoop_spec
        { st with
            stream := rest
            chunks := [item] } 0
      rw [hrun] at hspec
      obtain ⟨i1, _, _, _, _, _, i7⟩ := hspec
      obtain ⟨he, hd1, he1, hs1⟩ :=
        i7 e err (by simpa using herr) (by simpa using hfail) rfl
      refine ⟨he, hd1, he1, hs1, ?_, iterFull_done st1 hd1,
        resolve_done st1 hd1⟩
      have e1 : st1.chunks ++ st1.stream = item :: rest := by simpa using i1
      rw [hs1, List.append_nil] at e1
      rw [e1]
      simp
  | cons c cs =>
    rw [iterFull_eq_loop st hdone (by simp [hc])] at hrun
    have hspec := iterLoop_spec st 0
    rw [hrun] at hspec
    obtain ⟨i1, _, _, _, _, _, i7⟩ := hspec
    obtain ⟨he, hd1, he1, hs1⟩ := i7 e err herr hfail rfl
    refine ⟨he, hd1, he1, hs1, ?_, iterFull_done st1 hd1,
      resolve_done st1 hd1⟩
    have e1 : st1.chunks ++ st1.stream = st.chunks ++ st.stream := i1
    rw [hs1, List.append_nil, hc] at e1
    simpa using e1

/-- C7 witness: a one-chunk accumulator whose upstream iterator fails with
exception tag 7. -/
theorem c7_upstream_failure_amended_witness :
    (GError.upstream 7 : GError) = .upstream 7 ∧
    (⟨true, [], some 7, ⟨[], ⟨0⟩⟩, [⟨[], ⟨0⟩⟩], some (.upstream 7)⟩ :
      GCRState).done = true ∧
    (⟨true, [], some 7, ⟨[], ⟨0⟩⟩, [⟨[], ⟨0⟩⟩], some (.upstream 7)⟩ :
      GCRState).error = some (.upstream 7) ∧
    (⟨true, [], some 7, ⟨[], ⟨0⟩⟩, [⟨[], ⟨0⟩⟩], some (.upstream 7)⟩ :
      GCRState).stream = [] ∧
    (⟨true, [], some 7, ⟨[], ⟨0⟩⟩, [⟨[], ⟨0⟩⟩], some (.upstream 7)⟩ :
      GCRState).chunks =
      (⟨false, [], some 7, ⟨[], ⟨0⟩⟩, [⟨[], ⟨0⟩⟩], none⟩ :
        GCRState).chunks ++
      (⟨false, [], some 7, ⟨[], ⟨0⟩⟩, [⟨[], ⟨0⟩⟩], none⟩ :
        GCRState).stream ∧
    iterFull ⟨true, [], some 7, ⟨[], ⟨0⟩⟩, [⟨[], ⟨0⟩⟩], some (.upstream 7)⟩ =
      ((⟨true, [], some 7, ⟨[], ⟨0⟩⟩, [⟨[], ⟨0⟩⟩], some (.upstream 7)⟩ :
          GCRState).chunks.map from_response, .ok,
        ⟨true, [], some 7, ⟨[], ⟨0⟩⟩, [⟨[], ⟨0⟩⟩], some (.upstream 7)⟩) ∧
    resolve ⟨true, [], some 7, ⟨[], ⟨0⟩⟩, [⟨[], ⟨0⟩⟩], some (.upstream 7)⟩ =
      (.ok, ⟨true, [], some 7, ⟨[], ⟨0⟩⟩, [⟨[], ⟨0⟩⟩], some (.upstream 7)⟩) :=
  c7_upstream_failure_amended
    ⟨false, [], some 7, ⟨[], ⟨0⟩⟩, [⟨[], ⟨0⟩⟩], none⟩
    ⟨true, [], some 7, ⟨[], ⟨0⟩⟩, [⟨[], ⟨0⟩⟩], some (.upstream 7)⟩
    7 [from_response ⟨[], ⟨0⟩⟩] (.upstream 7)
    rfl rfl rfl (by decide)

end glm

namespace glm

/-- C8 counterexample: on a done accumulator whose sole candidate has zero
parts, the `parts` property silently returns the empty list instead of
raising an error, refuting the claim's third error shape. -/
theorem c8_empty_parts_counterexample :
    partsAccessor (from_response ⟨[⟨0, ⟨"model", []⟩, 1, [], ⟨[]⟩⟩], ⟨0⟩⟩) =
      .ok [] := rfl

/-- C8 (amended): the `parts` accessor raises `IncompleteIterationError` on a
live accumulator, and on a done one it errors in exactly two shapes — zero
candidates or more than one candidate; with a sole candidate it returns that
candidate's parts unconditionally, even when they are empty. -/
theorem c8_parts_accessor_amended (st : GCRState) :
    (st.done = false → partsAccessor st = .error .incomplete) ∧
    (st.done = true →
      partsAccessor st =
        match st.result.candidates with
        | [] => .error .noCandidates
        | [candidate] => .ok candidate.content.parts
        | _ :: _ :: _ => .error .multipleCandidates) := by
  constructor
  · intro hdone
    simp [partsAccessor, candidatesAccessor, hdone]
  · intro hdone
    cases hcand : st.result.candidates with
    | nil => simp [partsAccessor, candidatesAccessor, hdone, hcand]
    | cons c tl =>
      cases tl with
      | nil => simp [partsAccessor, candidatesAccessor, hdone, hcand]
      | cons c2 tl2 => simp [partsAccessor, candidatesAccessor, hdone, hcand]

/-- C8 witness: the accessor on a live accumulator reports incompleteness. -/
theorem c8_parts_accessor_amended_witness :
    partsAccessor ⟨false, [], none, ⟨[], ⟨0⟩⟩, [], none⟩ =
      .error .incomplete :=
  (c8_parts_accessor_amended ⟨false, [], none, ⟨[], ⟨0⟩⟩, [], none⟩).1 rfl

/-- C9 counterexample: `from_iterator` on an already-exhausted producer does
not return an accumulator — the seed pull's terminal signal propagates out of
the constructor, refuting the claim's always-returns clause. -/
theorem c9_empty_producer_counterexample :
    from_iterator ⟨[], none⟩ = .error none := rfl

/-- C9 (amended): `from_iterator` pulls exactly one item: on a non-empty
producer it returns a live accumulator seeded with that first item as both
`result` and the only buffered chunk (latching the blocked-prompt error when
applicable) and the remainder still pending; on an empty producer the first
pull's exhaustion or failure signal escapes the constructor unhandled. -/
theorem c9_from_iterator_amended (p : Producer) :
    (p.items = [] → from_iterator p = .error p.failure) ∧
    ∀ m rest, p.items = m :: rest →
      from_iterator p = .ok
        { done := false
          stream := rest
          streamFail := p.failure
          result := m
          chunks := [m]
          error := initError m } := by
  constructor
  · intro h
    simp [from_iterator, h]
  · intro m rest h
    simp [from_iterator, h]

/-- C9 witness: an empty producer with failure tag 5 propagates it. -/
theorem c9_from_iterator_amended_witness :
    from_iterator ⟨[], some 5⟩ = .error (some 5) :=
  (c9_from_iterator_amended ⟨[], some 5⟩).1 rfl

end glm
